import Mathlib

/-!
# WarehouseTSP — verification of the routing-graph / route-optimization core

Shallow embedding of the WarehouseTSP repository's core algorithms:

* geometry utilities (`line_segments_intersect`, `check_line_intersects_obstacle`,
  `is_path_blocked`) from `src/legacy/warehouse_graph_enhanced.py`;
* rack inference pairing (`infer_racks_from_bins`) from the same file;
* the enhanced graph builder (`build_enhanced_graph`, `create_graph_from_edges`);
* the fixed-endpoint TSP solvers (`_solve_tsp_greedy`, `_solve_tsp_2opt`,
  `_solve_tsp_exhaustive`, `solve_tsp_with_endpoints`) from
  `src/physical/routing.py`;
* the multi-floor per-floor strategy (`MultiFloorWarehouse.solve_per_floor_tsp`)
  from `src/legacy/multi_floor.py`.

Embedding conventions:

* Python floats are embedded as `ℚ`.  All Euclidean-distance *comparisons*
  performed by the graph builder are embedded via squared distances
  (`sqDist p q ≤ t` embeds `math.sqrt(...) ≤ t'` with `t = t'^2`, valid since
  `Real.sqrt` is monotone and both sides are nonnegative); the recorded edge
  weight is accordingly the squared distance, a strictly monotone transform
  of the source's weight that no verified claim reads.
* External-library calls (`networkx` shortest paths / connected components,
  `sklearn` DBSCAN) are not code of this repository.  Shortest-path queries
  are abstracted as an oracle `sp : ℕ → ℕ → Option (List ℕ × ℚ)` combining
  `nx.has_path` / `nx.shortest_path` / `nx.shortest_path_length`
  (`none` = no path).  Connected components are computed by an executable
  union-merge (`connectedComponents`) proved to produce nonempty, covering,
  internally connected classes — the contract of `nx.connected_components`.
* Location ids (Python strings) are embedded as `ℕ`; dataframe rows are a
  `List Loc` indexed by position, matching `locs.loc[idx, ...]` access.
* Python exceptions are embedded as an explicit `crash` result; the
  `(None, None, None)` failure return is an explicit `failure` result.
-/

/-- A planar point with rational coordinates (embeds an `(x, y)` float tuple). -/
structure Pt where
  x : ℚ
  y : ℚ
deriving DecidableEq, Repr

/-- Squared Euclidean distance.  Embeds `calculate_distance` up to the strictly
monotone map `t ↦ t^2`; every comparison the source makes on distances is
embedded as the corresponding comparison of squared distances. -/
def sqDist (p q : Pt) : ℚ :=
  (p.x - q.x) ^ 2 + (p.y - q.y) ^ 2

/-- Embeds `line_segments_intersect(p1, p2, p3, p4)`
(`src/legacy/warehouse_graph_enhanced.py`): parametric test, returning `false`
for (near-)parallel segments with `|denom| < 1e-10`. -/
def line_segments_intersect (p1 p2 p3 p4 : Pt) : Bool :=
  let denom := (p1.x - p2.x) * (p3.y - p4.y) - (p1.y - p2.y) * (p3.x - p4.x)
  if |denom| < 1 / 10 ^ 10 then
    false
  else
    let t := ((p1.x - p3.x) * (p3.y - p4.y) - (p1.y - p3.y) * (p3.x - p4.x)) / denom
    let u := -((p1.x - p2.x) * (p1.y - p3.y) - (p1.y - p2.y) * (p1.x - p3.x)) / denom
    decide (0 ≤ t ∧ t ≤ 1 ∧ 0 ≤ u ∧ u ≤ 1)

/-- The four corner-to-corner edges of the axis-aligned rectangle, in the
source's order (bottom, right, top, left). -/
def rectEdges (minX maxX minY maxY : ℚ) : List (Pt × Pt) :=
  [ (⟨minX, minY⟩, ⟨maxX, minY⟩)
  , (⟨maxX, minY⟩, ⟨maxX, maxY⟩)
  , (⟨maxX, maxY⟩, ⟨minX, maxY⟩)
  , (⟨minX, maxY⟩, ⟨minX, minY⟩) ]

/-- Embeds `check_line_intersects_obstacle(p1, p2, center, width, depth)`:
endpoint-inside test, then bounding-box reject, then the four edge tests. -/
def check_line_intersects_obstacle (p1 p2 : Pt) (center : Pt)
    (width depth : ℚ) : Bool :=
  let obsMinX := center.x - width / 2
  let obsMaxX := center.x + width / 2
  let obsMinY := center.y - depth / 2
  let obsMaxY := center.y + depth / 2
  if [p1, p2].any (fun p =>
      decide (obsMinX ≤ p.x ∧ p.x ≤ obsMaxX ∧ obsMinY ≤ p.y ∧ p.y ≤ obsMaxY)) then
    true
  else
    let lineMinX := min p1.x p2.x
    let lineMaxX := max p1.x p2.x
    let lineMinY := min p1.y p2.y
    let lineMaxY := max p1.y p2.y
    if decide (lineMaxX < obsMinX ∨ lineMinX > obsMaxX ∨
               lineMaxY < obsMinY ∨ lineMinY > obsMaxY) then
      false
    else
      (rectEdges obsMinX obsMaxX obsMinY obsMaxY).any
        (fun e => line_segments_intersect p1 p2 e.1 e.2)

/-- Spec-side predicate: one of the two endpoints lies inside the rectangle. -/
def endpointInsideRect (p1 p2 : Pt) (center : Pt) (width depth : ℚ) : Prop :=
  ∃ p ∈ [p1, p2],
    center.x - width / 2 ≤ p.x ∧ p.x ≤ center.x + width / 2 ∧
    center.y - depth / 2 ≤ p.y ∧ p.y ≤ center.y + depth / 2

/-- Spec-side predicate: the segment's bounding box overlaps the rectangle's. -/
def bboxOverlap (p1 p2 : Pt) (center : Pt) (width depth : ℚ) : Prop :=
  ¬ (max p1.x p2.x < center.x - width / 2 ∨ min p1.x p2.x > center.x + width / 2 ∨
     max p1.y p2.y < center.y - depth / 2 ∨ min p1.y p2.y > center.y + depth / 2)

/-- Spec-side predicate: the segment crosses at least one of the rectangle's
four edges (under the source's own per-edge parametric test). -/
def crossesSomeRectEdge (p1 p2 : Pt) (center : Pt) (width depth : ℚ) : Prop :=
  ∃ e ∈ rectEdges (center.x - width / 2) (center.x + width / 2)
        (center.y - depth / 2) (center.y + depth / 2),
    line_segments_intersect p1 p2 e.1 e.2 = true

/-- **C8** — Segment-rectangle blocking test: `check_line_intersects_obstacle`
returns `true` iff either endpoint lies inside the rectangle, or the segment's
bounding box overlaps the rectangle's bounding box and the segment crosses at
least one of the rectangle's four edges (each per-edge test returning `false`
when the determinant magnitude is below `1e-10`). -/
theorem check_line_intersects_obstacle_iff
    (p1 p2 center : Pt) (width depth : ℚ) :
    check_line_intersects_obstacle p1 p2 center width depth = true ↔
      endpointInsideRect p1 p2 center width depth ∨
        (bboxOverlap p1 p2 center width depth ∧
          crossesSomeRectEdge p1 p2 center width depth) := by
  unfold check_line_intersects_obstacle endpointInsideRect bboxOverlap
    crossesSomeRectEdge
  by_cases hin : [p1, p2].any (fun p =>
      decide (center.x - width / 2 ≤ p.x ∧ p.x ≤ center.x + width / 2 ∧
              center.y - depth / 2 ≤ p.y ∧ p.y ≤ center.y + depth / 2)) = true
  · simp only [hin, if_true, true_iff]
    left
    rcases List.any_eq_true.mp hin with ⟨p, hp, hdec⟩
    exact ⟨p, hp, by simpa using hdec⟩
  · simp only [hin, if_false, Bool.false_eq_true]
    have hnotin : ¬ ∃ p ∈ [p1, p2],
        center.x - width / 2 ≤ p.x ∧ p.x ≤ center.x + width / 2 ∧
        center.y - depth / 2 ≤ p.y ∧ p.y ≤ center.y + depth / 2 := by
      intro ⟨p, hp, hcond⟩
      exact hin (List.any_eq_true.mpr ⟨p, hp, by simpa using hcond⟩)
    by_cases hbox : (max p1.x p2.x < center.x - width / 2 ∨
        min p1.x p2.x > center.x + width / 2 ∨
        max p1.y p2.y < center.y - depth / 2 ∨
        min p1.y p2.y > center.y + depth / 2)
    · simp only [decide_eq_true_eq, hbox, if_true]
      constructor
      · intro h; exact absurd h (by simp)
      · rintro (h | ⟨hov, _⟩)
        · exact absurd h hnotin
        · exact absurd trivial hov
    · simp only [decide_eq_true_eq, hbox, if_false]
      rw [List.any_eq_true]
      constructor
      · rintro ⟨e, he, hcr⟩
        exact Or.inr ⟨fun h => h, e, he, hcr⟩
      · rintro (h | ⟨_, e, he, hcr⟩)
        · exact absurd h hnotin
        · exact ⟨e, he, hcr⟩

/-! ## Fixed-endpoint TSP solvers (`src/physical/routing.py`)

The solvers query `networkx` for shortest paths; those external calls are
abstracted as an oracle `sp : ℕ → ℕ → Option (List ℕ × ℚ)` returning the
shortest path (node list) and its weighted length, or `none` when
`nx.has_path` is false.  `nx.shortest_path` / `nx.shortest_path_length` on
connected queries and `nx.has_path` are thereby bundled coherently, which is
exactly the `networkx` contract.  Python's `set(pick_locations)` (greedy's
working set) is embedded as a deduplicated list whose iteration order is the
list order; the spec itself documents the set-iteration order as open
nondeterminism. -/

/-- Shortest-path oracle: `sp a b = some (path, length)` when a path exists,
`none` otherwise. -/
abbrev SPOracle := ℕ → ℕ → Option (List ℕ × ℚ)

/-- Shortest-path length only (`nx.shortest_path_length`). -/
def spLen (sp : SPOracle) (a b : ℕ) : Option ℚ := (sp a b).map Prod.snd

/-- Result of one solver attempt.  `ok` carries `(full_route, total_distance,
pick_order)`; `failure` embeds the `(None, None, None)` return; `crash` embeds
an uncaught Python exception (e.g. `nx.shortest_path` raising during route
rebuilding). -/
inductive TSPResult where
  | crash : TSPResult
  | failure : TSPResult
  | ok (route : List ℕ) (dist : ℚ) (order : List ℕ) : TSPResult
deriving DecidableEq, Repr

/-- The inner selection loop of `_solve_tsp_greedy`, one candidate at a time:
`nearest_dist` starts at infinity (accumulator `none`), and `dist <
nearest_dist` keeps the first minimum in iteration order. -/
def selectNearestGo (sp : SPOracle) (current : ℕ) :
    List ℕ → Option (ℕ × ℚ) → Option (ℕ × ℚ)
  | [], best => best
  | pick :: rest, best =>
      selectNearestGo sp current rest
        (match sp current pick with
         | none => best
         | some (_, dist) =>
           match best with
           | none => some (pick, dist)
           | some (_, bestDist) =>
             if dist < bestDist then some (pick, dist) else best)

/-- The selection pass of `_solve_tsp_greedy`: the first unvisited pick
realizing the strict minimum shortest-path distance from `current`. -/
def selectNearest (sp : SPOracle) (current : ℕ) (remaining : List ℕ) :
    Option (ℕ × ℚ) :=
  selectNearestGo sp current remaining none

/-- The tail of `_solve_tsp_greedy` after the while-loop: append the final leg
to `endNode` when a path exists. -/
def greedyFinish (sp : SPOracle) (endNode current : ℕ) (route : List ℕ)
    (order : List ℕ) (total : ℚ) : List ℕ × ℚ × List ℕ :=
  match sp current endNode with
  | some (seg, d) => (route ++ seg.drop 1, total + d, order)
  | none => (route, total, order)

/-- The while-loop of `_solve_tsp_greedy`.  Each iteration removes the selected
pick from `remaining`, so `remaining.length` is an exact fuel. -/
def greedyGo (sp : SPOracle) (endNode : ℕ) :
    ℕ → ℕ → List ℕ → List ℕ → List ℕ → ℚ → List ℕ × ℚ × List ℕ
  | 0, current, _, route, order, total =>
      greedyFinish sp endNode current route order total
  | fuel + 1, current, remaining, route, order, total =>
      match selectNearest sp current remaining with
      | none => greedyFinish sp endNode current route order total
      | some (nearest, dist) =>
          let seg := ((sp current nearest).map Prod.fst).getD []
          greedyGo sp endNode fuel nearest (remaining.erase nearest)
            (route ++ seg.drop 1) (order ++ [nearest]) (total + dist)

/-- Embeds `_solve_tsp_greedy(G, start_node, pick_locations, end_node)`:
returns `(route, total_distance, pick_order)`; never fails, never raises. -/
def solveTspGreedy (sp : SPOracle) (startNode : ℕ) (picks : List ℕ)
    (endNode : ℕ) : List ℕ × ℚ × List ℕ :=
  let remaining := picks.dedup
  greedyGo sp endNode remaining.length startNode remaining [startNode] [] 0

/-- The order-evaluation shared by `_solve_tsp_2opt` (its `new_distance`
computation) and `_solve_tsp_exhaustive` (its per-permutation total):
walk the picks from `startNode`, summing shortest-path legs, `none` embedding
`float('inf')` when some leg has no path; finally add the leg to `endNode`
only when the final position differs from `endNode` and a path exists. -/
def evalOrderGo (sp : SPOracle) (endNode : ℕ) : ℕ → List ℕ → ℚ → Option ℚ
  | current, [], acc =>
      if current ≠ endNode then
        match spLen sp current endNode with
        | some w => some (acc + w)
        | none => some acc
      else some acc
  | current, pick :: rest, acc =>
      match spLen sp current pick with
      | some w => evalOrderGo sp endNode pick rest (acc + w)
      | none => none

/-- Total distance of a visiting order, as the source computes it. -/
def evalOrder (sp : SPOracle) (startNode endNode : ℕ) (order : List ℕ) :
    Option ℚ :=
  evalOrderGo sp endNode startNode order 0

/-- Route rebuilding shared by `_solve_tsp_2opt` and `_solve_tsp_exhaustive`:
concatenate shortest paths between consecutive waypoints, dropping each
segment's first node.  Here `nx.shortest_path` raises when no path exists —
embedded as `none` (a crash), since the source does not guard these calls. -/
def rebuildGo (sp : SPOracle) (endNode : ℕ) :
    ℕ → List ℕ → List ℕ → ℚ → Option (List ℕ × ℚ)
  | current, [], route, total =>
      match sp current endNode with
      | none => none
      | some (seg, d) => some (route ++ seg.drop 1, total + d)
  | current, pick :: rest, route, total =>
      match sp current pick with
      | none => none
      | some (seg, d) =>
          rebuildGo sp endNode pick rest (route ++ seg.drop 1) (total + d)

/-- The double scan of `_solve_tsp_2opt`: indices `i ∈ [0, n-2]`,
`j ∈ [i+2, n-1]` in source order. -/
def scanPairs (n : ℕ) : List (ℕ × ℕ) :=
  (List.range (n - 1)).flatMap fun i =>
    ((List.range n).drop (i + 2)).map fun j => (i, j)

/-- One candidate reversal: `pick_order[:i+1] + pick_order[i+1:j+1][::-1] +
pick_order[j+1:]`. -/
def twoOptSwap (order : List ℕ) (i j : ℕ) : List ℕ :=
  order.take (i + 1) ++ ((order.drop (i + 1)).take (j - i)).reverse ++
    order.drop (j + 1)

/-- One full 2-opt pass: the first (i, j) in scan order whose reversal
strictly improves on `dist` (first-improvement, as in the source's
double `break`). -/
def findImprovement (sp : SPOracle) (startNode endNode : ℕ) (order : List ℕ)
    (dist : ℚ) : Option (List ℕ × ℚ) :=
  (scanPairs order.length).findSome? fun ij =>
    let newOrder := twoOptSwap order ij.1 ij.2
    match evalOrder sp startNode endNode newOrder with
    | some v => if v < dist then some (newOrder, v) else none
    | none => none

/-- The `while improved and iterations < max_iterations` loop of
`_solve_tsp_2opt`; the fuel embeds `max_iterations = 100`. -/
def twoOptLoop (sp : SPOracle) (startNode endNode : ℕ) :
    ℕ → List ℕ → ℚ → List ℕ × ℚ
  | 0, order, dist => (order, dist)
  | fuel + 1, order, dist =>
      match findImprovement sp startNode endNode order dist with
      | none => (order, dist)
      | some (newOrder, newDist) =>
          twoOptLoop sp startNode endNode fuel newOrder newDist

/-- Embeds `_solve_tsp_2opt(G, start_node, pick_locations, end_node)`. -/
def solveTsp2opt (sp : SPOracle) (startNode : ℕ) (picks : List ℕ)
    (endNode : ℕ) : TSPResult :=
  let g := solveTspGreedy sp startNode picks endNode
  if g.2.2.length < 3 then .ok g.1 g.2.1 g.2.2
  else
    let improved := twoOptLoop sp startNode endNode 100 g.2.2 g.2.1
    match rebuildGo sp endNode startNode improved.1 [startNode] 0 with
    | none => .crash
    | some (route, total) => .ok route total improved.1

/-- The best-permutation fold of `_solve_tsp_exhaustive`:
`best_distance` starts at infinity, strict `<` keeps the first minimum in
enumeration order. -/
def exhaustiveBest (sp : SPOracle) (startNode endNode : ℕ) :
    List (List ℕ) → Option (ℚ × List ℕ) → Option (ℚ × List ℕ)
  | [], best => best
  | perm :: rest, best =>
      let next :=
        match evalOrder sp startNode endNode perm with
        | none => best
        | some v =>
          match best with
          | none => some (v, perm)
          | some (bv, _) => if v < bv then some (v, perm) else best
      exhaustiveBest sp startNode endNode rest next

/-- Embeds `_solve_tsp_exhaustive(G, start_node, pick_locations, end_node)`.
(`itertools.permutations` is embedded as `List.permutations'`, a complete
enumeration of the permutations; the two enumerations order ties differently,
which the source documents as unspecified.)  The returned distance is
`best_distance` from the search, the route is rebuilt afterwards. -/
def solveTspExhaustive (sp : SPOracle) (startNode : ℕ) (picks : List ℕ)
    (endNode : ℕ) : TSPResult :=
  match exhaustiveBest sp startNode endNode picks.permutations' none with
  | none => .failure
  | some (bestDist, bestOrder) =>
      match rebuildGo sp endNode startNode bestOrder [startNode] 0 with
      | none => .crash
      | some (route, _) => .ok route bestDist bestOrder

/-- Wraps greedy's infallible triple as a `TSPResult`. -/
def greedyResult (sp : SPOracle) (startNode : ℕ) (picks : List ℕ)
    (endNode : ℕ) : TSPResult :=
  let g := solveTspGreedy sp startNode picks endNode
  .ok g.1 g.2.1 g.2.2

/-- Method selector strings of `solve_tsp_with_endpoints`; `greedy` stands for
the `else` branch, which catches every string other than the three named
ones. -/
inductive TSPMethod where
  | exhaustive | twoOpt | christofides | greedy
deriving DecidableEq, Repr

/-- Embeds `solve_tsp_with_endpoints(G, start_node, pick_locations, end_node,
method)`: filters picks to graph members (`inGraph` embeds `p in G.nodes`),
fails on an empty filtered list, dispatches on the method — with
`method='exhaustive'` requiring at most 10 valid picks, otherwise falling
through to the greedy branch; `'christofides'` falls back to 2-opt per the
source. -/
def solveTspWithEndpoints (sp : SPOracle) (inGraph : ℕ → Bool)
    (startNode : ℕ) (picks : List ℕ) (endNode : ℕ) (method : TSPMethod) :
    TSPResult :=
  let valid := picks.filter inGraph
  if valid.isEmpty then .failure
  else
    match method with
    | .exhaustive =>
        if valid.length ≤ 10 then solveTspExhaustive sp startNode valid endNode
        else greedyResult sp startNode valid endNode
    | .twoOpt => solveTsp2opt sp startNode valid endNode
    | .christofides => solveTsp2opt sp startNode valid endNode
    | .greedy => greedyResult sp startNode valid endNode

/-! ### Solver lemmas and claims C10, C6, C2, C5 -/

lemma findSome?_spec {α β : Type} (f : α → Option β) (l : List α) (b : β)
    (h : l.findSome? f = some b) : ∃ a ∈ l, f a = some b := by
  induction l with
  | nil => simp [List.findSome?] at h
  | cons a rest ih =>
    rw [List.findSome?_cons] at h
    cases hfa : f a with
    | none => rw [hfa] at h; obtain ⟨x, hx, hfx⟩ := ih h; exact ⟨x, by simp [hx], hfx⟩
    | some v => rw [hfa] at h; exact ⟨a, by simp, by rw [hfa]; exact h⟩

/-- **C10** — Silent fallback of exhaustive search above 10 picks: with
`method='exhaustive'`, `solve_tsp_with_endpoints` runs the exhaustive solver
only when at most 10 valid (graph-present) picks remain; with 11 or more it
silently returns the greedy nearest-neighbor result instead, with no error
report. -/
theorem exhaustive_over_ten_falls_back_to_greedy (sp : SPOracle)
    (inGraph : ℕ → Bool) (startNode endNode : ℕ) (picks : List ℕ)
    (hv : picks.filter inGraph ≠ []) :
    (10 < (picks.filter inGraph).length →
      solveTspWithEndpoints sp inGraph startNode picks endNode .exhaustive =
        greedyResult sp startNode (picks.filter inGraph) endNode) ∧
    ((picks.filter inGraph).length ≤ 10 →
      solveTspWithEndpoints sp inGraph startNode picks endNode .exhaustive =
        solveTspExhaustive sp startNode (picks.filter inGraph) endNode) := by
  have hne : (picks.filter inGraph).isEmpty = false := by
    rcases h : picks.filter inGraph with _ | ⟨a, rest⟩
    · exact absurd h hv
    · rfl
  constructor
  · intro hlen
    unfold solveTspWithEndpoints
    simp only [hne, Bool.false_eq_true, if_false]
    rw [if_neg (Nat.not_le.mpr hlen)]
  · intro hlen
    unfold solveTspWithEndpoints
    simp only [hne, Bool.false_eq_true, if_false]
    rw [if_pos hlen]

/-- A complete-path oracle on the line graph `0 – 1 – 2 – 3` (unit edge
weights), used to instantiate the solver theorems on a concrete graph. -/
def spLine : SPOracle := fun a b =>
  if a ≤ 3 ∧ b ≤ 3 then
    some (if a ≤ b then List.range' a (b - a + 1)
          else (List.range' b (a - b + 1)).reverse,
          ((max a b - min a b : ℕ) : ℚ))
  else if a = b then some ([a], 0) else none

/-- **C10 witness** — with 11 valid picks, the exhaustive method returns the
greedy result. -/
theorem exhaustive_over_ten_falls_back_to_greedy_witness :
    solveTspWithEndpoints spLine (fun _ => true) 0
        [1, 2, 3, 1, 2, 3, 1, 2, 3, 1, 2] 0 .exhaustive =
      greedyResult spLine 0
        ([1, 2, 3, 1, 2, 3, 1, 2, 3, 1, 2].filter (fun _ => true)) 0 :=
  (exhaustive_over_ten_falls_back_to_greedy spLine (fun _ => true) 0 0
    [1, 2, 3, 1, 2, 3, 1, 2, 3, 1, 2] (by decide)).1 (by decide)

lemma exhaustiveBest_of_acc_some (sp : SPOracle) (s e : ℕ) :
    ∀ (perms : List (List ℕ)) (acc : Option (ℚ × List ℕ)) (av : ℚ)
      (ap : List ℕ), acc = some (av, ap) →
      ∃ v perm, exhaustiveBest sp s e perms acc = some (v, perm) ∧ v ≤ av := by
  intro perms
  induction perms with
  | nil => intro acc av ap hacc; exact ⟨av, ap, by simpa [exhaustiveBest], le_refl _⟩
  | cons perm rest ih =>
    intro acc av ap hacc
    subst hacc
    rw [exhaustiveBest]
    cases hev : evalOrder sp s e perm with
    | none =>
      simpa [hev] using ih (some (av, ap)) av ap rfl
    | some u =>
      by_cases hu : u < av
      · obtain ⟨v, p, h1, h2⟩ := ih (some (u, perm)) u perm rfl
        exact ⟨v, p, by simpa [hev, hu] using h1, le_trans h2 (le_of_lt hu)⟩
      · simpa [hev, hu] using ih (some (av, ap)) av ap rfl

lemma exhaustiveBest_lb (sp : SPOracle) (s e : ℕ) :
    ∀ (perms : List (List ℕ)) (acc : Option (ℚ × List ℕ)) (p : List ℕ)
      (w : ℚ), p ∈ perms → evalOrder sp s e p = some w →
      ∃ v perm, exhaustiveBest sp s e perms acc = some (v, perm) ∧ v ≤ w := by
  intro perms
  induction perms with
  | nil => intro _ _ _ hmem _; simp at hmem
  | cons perm rest ih =>
    intro acc p w hmem hev
    rw [List.mem_cons] at hmem
    rw [exhaustiveBest]
    rcases hmem with rfl | hmem
    · rw [hev]
      cases acc with
      | none => exact exhaustiveBest_of_acc_some sp s e rest _ w p rfl
      | some b =>
        obtain ⟨bv, bp⟩ := b
        by_cases hw : w < bv
        · simpa [hw] using exhaustiveBest_of_acc_some sp s e rest _ w p rfl
        · obtain ⟨v, q, h1, h2⟩ :=
            exhaustiveBest_of_acc_some sp s e rest (some (bv, bp)) bv bp rfl
          exact ⟨v, q, by simpa [hw] using h1, le_trans h2 (not_lt.mp hw)⟩
    · exact ih _ p w hmem hev

lemma exhaustiveBest_none (sp : SPOracle) (s e : ℕ) :
    ∀ (perms : List (List ℕ)) (acc : Option (ℚ × List ℕ)),
      exhaustiveBest sp s e perms acc = none →
      acc = none ∧ ∀ p ∈ perms, evalOrder sp s e p = none := by
  intro perms
  induction perms with
  | nil => intro acc h; exact ⟨by simpa [exhaustiveBest] using h, by simp⟩
  | cons perm rest ih =>
    intro acc h
    rw [exhaustiveBest] at h
    cases hev : evalOrder sp s e perm with
    | some u =>
      simp only [hev] at h
      exfalso
      cases acc with
      | none =>
        obtain ⟨v, q, h1, _⟩ :=
          exhaustiveBest_of_acc_some sp s e rest (some (u, perm)) u perm rfl
        rw [h] at h1; exact Option.noConfusion h1
      | some b =>
        obtain ⟨bv, bp⟩ := b
        change exhaustiveBest sp s e rest
          (if u < bv then some (u, perm) else some (bv, bp)) = none at h
        by_cases hu : u < bv
        · obtain ⟨v, q, h1, _⟩ :=
            exhaustiveBest_of_acc_some sp s e rest (some (u, perm)) u perm rfl
          rw [if_pos hu] at h
          rw [h] at h1; exact Option.noConfusion h1
        · obtain ⟨v, q, h1, _⟩ :=
            exhaustiveBest_of_acc_some sp s e rest (some (bv, bp)) bv bp rfl
          rw [if_neg hu] at h
          rw [h] at h1; exact Option.noConfusion h1
    | none =>
      rw [hev] at h
      obtain ⟨h1, h2⟩ := ih acc h
      refine ⟨h1, fun p hp => ?_⟩
      rcases List.mem_cons.mp hp with rfl | hp
      · exact hev
      · exact h2 p hp

lemma exhaustiveBest_mem (sp : SPOracle) (s e : ℕ) :
    ∀ (perms : List (List ℕ)) (acc : Option (ℚ × List ℕ)) (v : ℚ)
      (perm : List ℕ), exhaustiveBest sp s e perms acc = some (v, perm) →
      acc = some (v, perm) ∨
        (perm ∈ perms ∧ evalOrder sp s e perm = some v) := by
  intro perms
  induction perms with
  | nil => intro acc v perm h; exact Or.inl (by simpa [exhaustiveBest] using h)
  | cons q rest ih =>
    intro acc v perm h
    rw [exhaustiveBest] at h
    cases hev : evalOrder sp s e q with
    | none =>
      rw [hev] at h
      rcases ih acc v perm h with h' | ⟨hmem, hev'⟩
      · exact Or.inl h'
      · exact Or.inr ⟨List.mem_cons_of_mem _ hmem, hev'⟩
    | some u =>
      simp only [hev] at h
      cases acc with
      | none =>
        rcases ih (some (u, q)) v perm h with h' | ⟨hmem, hev'⟩
        · have h1 : u = v ∧ q = perm := by
            simpa [Prod.ext_iff] using h'
          exact Or.inr ⟨by simp [← h1.2], by rw [← h1.2, hev, h1.1]⟩
        · exact Or.inr ⟨List.mem_cons_of_mem _ hmem, hev'⟩
      | some b =>
        obtain ⟨bv, bp⟩ := b
        change exhaustiveBest sp s e rest
          (if u < bv then some (u, q) else some (bv, bp)) = some (v, perm) at h
        by_cases hu : u < bv
        · rw [if_pos hu] at h
          rcases ih (some (u, q)) v perm h with h' | ⟨hmem, hev'⟩
          · have h1 : u = v ∧ q = perm := by
              simpa [Prod.ext_iff] using h'
            exact Or.inr ⟨by simp [← h1.2], by rw [← h1.2, hev, h1.1]⟩
          · exact Or.inr ⟨List.mem_cons_of_mem _ hmem, hev'⟩
        · rw [if_neg hu] at h
          rcases ih (some (bv, bp)) v perm h with h' | ⟨hmem, hev'⟩
          · exact Or.inl h'
          · exact Or.inr ⟨List.mem_cons_of_mem _ hmem, hev'⟩

/-- **C6** — Exhaustive optimality: whenever `_solve_tsp_exhaustive` returns a
result, its returned order is one of the permutations of the picks, the
returned distance is exactly that order's computed distance
(sum of shortest-path legs start→p1→…→pk→end as the source computes it), and
it is less than or equal to every permutation's computed distance.
Determinism for fixed inputs is intrinsic: the embedding is a function. -/
theorem exhaustive_optimality (sp : SPOracle) (startNode endNode : ℕ)
    (picks route : List ℕ) (dist : ℚ) (order : List ℕ)
    (h : solveTspExhaustive sp startNode picks endNode = .ok route dist order) :
    order ∈ picks.permutations' ∧
      evalOrder sp startNode endNode order = some dist ∧
      ∀ perm ∈ picks.permutations', ∀ w,
        evalOrder sp startNode endNode perm = some w → dist ≤ w := by
  unfold solveTspExhaustive at h
  cases hbest : exhaustiveBest sp startNode endNode picks.permutations' none with
  | none => simp only [hbest] at h; exact absurd h (by simp)
  | some b =>
    obtain ⟨v, perm⟩ := b
    simp only [hbest] at h
    have hvp : v = dist ∧ perm = order := by
      cases hreb : rebuildGo sp endNode startNode perm [startNode] 0 with
      | none => simp only [hreb] at h; exact absurd h (by simp)
      | some rp =>
        obtain ⟨r, t⟩ := rp
        simp only [hreb, TSPResult.ok.injEq] at h
        exact ⟨h.2.1, h.2.2⟩
    rcases exhaustiveBest_mem sp startNode endNode picks.permutations' none
        v perm hbest with hacc | ⟨hmem, hev⟩
    · exact Option.noConfusion hacc
    · rw [← hvp.1, ← hvp.2]
      refine ⟨hmem, hev, fun p hp w hw => ?_⟩
      obtain ⟨v', perm', h1, h2⟩ :=
        exhaustiveBest_lb sp startNode endNode picks.permutations' none p w hp hw
      rw [hbest] at h1
      obtain ⟨h3, -⟩ : v = v' ∧ perm = perm' := by
        simpa [Prod.ext_iff] using h1
      rw [h3]; exact h2

/-- A complete-path oracle on the line graph `0 – 1 – 2 – 3` used as a witness
instance (every node also reaches itself with distance 0). -/
theorem spLine_self (x : ℕ) : spLen spLine x x = some 0 := by
  unfold spLen spLine
  by_cases hx : x ≤ 3
  · simp [hx]
  · simp [hx]

/-- **C6 witness** — on the line graph, picks {1, 2} from 0 back to 0:
exhaustive search returns order [1, 2] with distance 4, which is also a lower
bound for the competing permutation [2, 1]. -/
theorem exhaustive_optimality_witness :
    solveTspExhaustive spLine 0 [1, 2] 0 = .ok [0, 1, 2, 1, 0] 4 [1, 2] ∧
      (4 : ℚ) ≤ 4 := by
  have h : solveTspExhaustive spLine 0 [1, 2] 0 =
      .ok [0, 1, 2, 1, 0] 4 [1, 2] := by
    norm_num [solveTspExhaustive, exhaustiveBest, evalOrder, evalOrderGo,
      rebuildGo, spLen, spLine, List.permutations', List.permutations'Aux,
      List.range', List.dropLast]
  refine ⟨h, (exhaustive_optimality spLine 0 0 [1, 2] [0, 1, 2, 1, 0] 4 [1, 2]
    h).2.2 [2, 1] (by norm_num [List.permutations', List.permutations'Aux]) 4 ?_⟩
  norm_num [evalOrder, evalOrderGo, spLen, spLine]

/-- **C2 (amended)** — Unreachable-waypoint handling per strategy: the
exhaustive strategy hard-fails — it returns the `(None, None, None)` failure
triple exactly when every permutation of the picks has an unreachable leg, and
any order it does return contains every pick (a permutation of the pick list,
nothing silently dropped).  The greedy strategy (and 2-opt, which seeds from
it) instead silently drops unreachable picks — see the counterexample. -/
theorem exhaustive_rejects_unreachable (sp : SPOracle) (startNode endNode : ℕ)
    (picks : List ℕ) :
    (solveTspExhaustive sp startNode picks endNode = .failure ↔
      ∀ perm ∈ picks.permutations',
        evalOrder sp startNode endNode perm = none) ∧
    ∀ route dist order,
      solveTspExhaustive sp startNode picks endNode = .ok route dist order →
        order.Perm picks := by
  constructor
  · constructor
    · intro h
      unfold solveTspExhaustive at h
      cases hbest : exhaustiveBest sp startNode endNode picks.permutations'
          none with
      | none =>
        exact (exhaustiveBest_none sp startNode endNode picks.permutations'
          none hbest).2
      | some b =>
        obtain ⟨v, perm⟩ := b
        simp only [hbest] at h
        cases hreb : rebuildGo sp endNode startNode perm [startNode] 0 with
        | none => simp only [hreb] at h; exact absurd h (by simp)
        | some rp =>
          obtain ⟨r, t⟩ := rp
          simp only [hreb] at h
          exact absurd h (by simp)
    · intro hall
      unfold solveTspExhaustive
      cases hbest : exhaustiveBest sp startNode endNode picks.permutations'
          none with
      | none => rfl
      | some b =>
        obtain ⟨v, perm⟩ := b
        rcases exhaustiveBest_mem sp startNode endNode picks.permutations' none
            v perm hbest with hacc | ⟨hmem, hev⟩
        · exact Option.noConfusion hacc
        · rw [hall perm hmem] at hev; exact Option.noConfusion hev
  · intro route dist order h
    unfold solveTspExhaustive at h
    cases hbest : exhaustiveBest sp startNode endNode picks.permutations'
        none with
    | none => rw [hbest] at h; exact absurd h (by simp)
    | some b =>
      obtain ⟨v, perm⟩ := b
      simp only [hbest] at h
      rcases exhaustiveBest_mem sp startNode endNode picks.permutations' none
          v perm hbest with hacc | ⟨hmem, -⟩
      · exact Option.noConfusion hacc
      · cases hreb : rebuildGo sp endNode startNode perm [startNode] 0 with
        | none => simp only [hreb] at h; exact absurd h (by simp)
        | some rp =>
          obtain ⟨r, t⟩ := rp
          simp only [hreb, TSPResult.ok.injEq] at h
          rw [← h.2.2]
          exact List.mem_permutations'.mp hmem

/-- Oracle for the graph on nodes {0, 1} with no edge between them (each node
reaches only itself). -/
def spIsolated : SPOracle := fun a b =>
  if a = 0 ∧ b = 0 then some ([0], 0)
  else if a = 1 ∧ b = 1 then some ([1], 0)
  else none

/-- **C2 counterexample** — pick 1 has no path from start/end 0, yet the
greedy strategy (and the 2-opt strategy seeded from it) does not return a
failure indicator: each returns the partial route `[0]` with distance 0 and
an empty pick order, silently dropping the unreachable pick. -/
theorem greedy_drops_unreachable_pick :
    spIsolated 0 1 = none ∧
      solveTspWithEndpoints spIsolated (fun _ => true) 0 [1] 0 .greedy =
        .ok [0] 0 [] ∧
      solveTspWithEndpoints spIsolated (fun _ => true) 0 [1] 0 .twoOpt =
        .ok [0] 0 [] := by
  refine ⟨by norm_num [spIsolated], ?_, ?_⟩ <;>
    norm_num [solveTspWithEndpoints, greedyResult, solveTspGreedy,
      solveTsp2opt, greedyGo, greedyFinish, selectNearest, selectNearestGo,
      spIsolated, List.dedup]

/-- **C2 witness** — on the line graph, exhaustive search with an unreachable
pick (node 7 is outside the graph oracle's reach) hard-fails with the failure
triple, as the amended claim states. -/
theorem exhaustive_rejects_unreachable_witness :
    solveTspExhaustive spLine 0 [7] 0 = .failure := by
  refine (exhaustive_rejects_unreachable spLine 0 0 [7]).1.mpr ?_
  norm_num [List.permutations', List.permutations'Aux, evalOrder, evalOrderGo,
    spLen, spLine]

/-! ## Enhanced graph builder (`src/legacy/warehouse_graph_enhanced.py`)

The locations dataframe is embedded as a `List Loc` addressed by positional
index (`locs.loc[idx, ...]` becomes `locs.getD idx default`).  The aisle and
rack annotation columns (`v_aisle`, `h_aisle`, `rack_id`, `rack_side`) are
produced upstream by `sklearn` DBSCAN runs (external code) and are therefore
part of the input table here.  Distances follow the squared-distance
convention described at the top of the file: `calculate_distance(p1, p2) ≤ t`
is embedded as `sqDist p1 p2 ≤ t^2`, argmin/sort comparisons of distances as
the same comparisons of squared distances (strictly monotone transform), and
the recorded edge weight is the squared distance. -/

/-- Location types that the builder and the multi-floor composer inspect. -/
inductive LocType where
  | picking | staging | dock | aisle | other
deriving DecidableEq, Repr

/-- The `rack_side` column: `'left'`, `'right'` or `'none'`. -/
inductive RackSide where
  | left | right | noSide
deriving DecidableEq, Repr

/-- One row of the locations dataframe, with the physical columns the builder
reads and the annotation columns produced by upstream clustering
(`-1` = unassigned, as in the source). -/
structure Loc where
  id : ℕ
  x : ℚ
  y : ℚ
  typ : LocType
  width : ℚ
  depth : ℚ
  traversable : Bool
  vAisle : ℤ
  hAisle : ℤ
  rackId : ℤ
  rackSide : RackSide
deriving DecidableEq, Repr

instance : Inhabited Loc :=
  ⟨⟨0, 0, 0, .other, 0, 0, false, -1, -1, -1, .noSide⟩⟩

/-- The `(x, y)` point of a row. -/
def Loc.pt (l : Loc) : Pt := ⟨l.x, l.y⟩

/-- Embeds `is_path_blocked(p1, p2, locs, min_clearance)`: some non-traversable
row's footprint, expanded by the clearance on every side, intersects the
segment. -/
def is_path_blocked (p1 p2 : Pt) (locs : List Loc) (minClearance : ℚ) : Bool :=
  locs.any fun obs =>
    !obs.traversable &&
      check_line_intersects_obstacle p1 p2 ⟨obs.x, obs.y⟩
        (obs.width + 2 * minClearance) (obs.depth + 2 * minClearance)

/-- Embeds `should_prevent_connection(locs, idx1, idx2)`: both rows are rack
bins on opposite sides and vertically within 20 units of each other. -/
def should_prevent_connection (locs : List Loc) (idx1 idx2 : ℕ) : Bool :=
  let l1 := locs.getD idx1 default
  let l2 := locs.getD idx2 default
  if 0 ≤ l1.rackId ∧ 0 ≤ l2.rackId ∧ l1.rackSide ≠ RackSide.noSide ∧
      l2.rackSide ≠ RackSide.noSide then
    if l1.rackSide ≠ l2.rackSide then
      decide (|l1.y - l2.y| < 20)
    else false
  else false

/-- Indices of the traversable rows (in dataframe order). -/
def traversableIndices (locs : List Loc) : List ℕ :=
  (List.range locs.length).filter fun i => (locs.getD i default).traversable

/-- Distinct labels in first-occurrence order (the `defaultdict` key order of
the source's aisle grouping). -/
def labelsInOrder (lbls : List ℤ) : List ℤ :=
  lbls.foldl (fun acc l => if l ∈ acc then acc else acc ++ [l]) []

/-- Aisle groups: for one label, the member indices in dataframe order. -/
def aisleGroups (trav : List ℕ) (label : ℕ → ℤ) : List (List ℕ) :=
  (labelsInOrder ((trav.map label).filter (0 ≤ ·))).map fun lbl =>
    trav.filter fun i => label i = lbl

/-- Consecutive pairs of a list (`sorted_nodes[i], sorted_nodes[i+1]`). -/
def consecPairs : List ℕ → List (ℕ × ℕ)
  | [] => []
  | [_] => []
  | a :: b :: rest => (a, b) :: consecPairs (b :: rest)

/-- The shared body of the two intra-aisle passes: sort one aisle's members by
the perpendicular coordinate, then connect consecutive pairs that are not
rack-prevented, within the distance cap, and not obstacle-blocked. -/
def intraAisleEdges (locs : List Loc) (maxIntraAisleDist minClearance : ℚ)
    (sortKey : ℕ → ℚ) (groups : List (List ℕ)) : List (ℕ × ℕ × ℚ) :=
  groups.flatMap fun g =>
    if g.length < 2 then []
    else
      (consecPairs (g.mergeSort fun i j => decide (sortKey i ≤ sortKey j))).filterMap
        fun ij =>
          if should_prevent_connection locs ij.1 ij.2 then none
          else
            let p1 := (locs.getD ij.1 default).pt
            let p2 := (locs.getD ij.2 default).pt
            let d := sqDist p1 p2
            if d ≤ maxIntraAisleDist ^ 2 then
              if is_path_blocked p1 p2 locs minClearance then none
              else some ((locs.getD ij.1 default).id,
                         (locs.getD ij.2 default).id, d)
            else none

/-- Cross-aisle edges at intersection points: all index pairs `i < j` of
intersection nodes, skipping co-aisle pairs, rack-prevented pairs, pairs over
the cross-aisle cap and blocked pairs. -/
def crossAisleEdges (locs : List Loc) (maxCrossAisleDist minClearance : ℚ)
    (inter : List ℕ) : List (ℕ × ℕ × ℚ) :=
  inter.flatMap fun i =>
    inter.filterMap fun j =>
      if i < j then
        let l1 := locs.getD i default
        let l2 := locs.getD j default
        if l1.vAisle = l2.vAisle ∧ 0 ≤ l1.vAisle then none
        else if l1.hAisle = l2.hAisle ∧ 0 ≤ l1.hAisle then none
        else if should_prevent_connection locs i j then none
        else
          let d := sqDist l1.pt l2.pt
          if d ≤ maxCrossAisleDist ^ 2 then
            if is_path_blocked l1.pt l2.pt locs minClearance then none
            else some (l1.id, l2.id, d)
          else none
      else none

/-- Isolated-node stitching: each traversable node in no aisle is connected to
its two nearest unblocked traversable neighbours (stable sort on distance). -/
def isolatedEdges (locs : List Loc) (minClearance : ℚ) (trav : List ℕ) :
    List (ℕ × ℕ × ℚ) :=
  (trav.filter fun i =>
      (locs.getD i default).vAisle = -1 ∧ (locs.getD i default).hAisle = -1).flatMap
    fun iso =>
      let p1 := (locs.getD iso default).pt
      let cands := trav.filterMap fun j =>
        if j = iso then none
        else
          let p2 := (locs.getD j default).pt
          if is_path_blocked p1 p2 locs minClearance then none
          else some (j, sqDist p1 p2)
      ((cands.mergeSort fun a b => decide (a.2 ≤ b.2)).take 2).map fun jd =>
        ((locs.getD iso default).id, (locs.getD jd.1 default).id, jd.2)

/-- Union-merge step: the components touching `a` or `b` are merged (embeds
the effect of `temp_G.add_edge(a, b)` on `nx.connected_components`). -/
def addEdgeComps (comps : List (List ℕ)) (a b : ℕ) : List (List ℕ) :=
  if (comps.any fun c => c.contains a) && (comps.any fun c => c.contains b) then
    (comps.filter fun c => !(c.contains a || c.contains b)) ++
      [(comps.filter fun c => c.contains a || c.contains b).flatten]
  else comps

/-- Executable stand-in for `nx.connected_components(temp_G)` (external
library): start from singletons and merge along each edge.  The lemmas below
establish the `networkx` contract actually used: classes are nonempty, cover
the nodes, contain only nodes, and are internally connected. -/
def connectedComponents (nodes : List ℕ) (edges : List (ℕ × ℕ × ℚ)) :
    List (List ℕ) :=
  edges.foldl (fun comps e => addEdgeComps comps e.1 e.2.1)
    (nodes.map fun n => [n])

/-- First row with a given id (`locs[locs['id'] == node].index[0]`). -/
def locOfId (locs : List Loc) (n : ℕ) : Loc :=
  (locs.find? fun l => l.id = n).getD default

/-- Inner scan of the bridging search: all nodes of the remaining components
against a fixed node of the current component, keeping the strictly closest
pair seen so far (first-wins, `dist < min_dist`). -/
def bridgeScanFrom (locs : List Loc) (n1 : ℕ) :
    List ℕ → Option (ℕ × ℕ × ℚ) → Option (ℕ × ℕ × ℚ)
  | [], best => best
  | n2 :: rest, best =>
      let d := sqDist (locOfId locs n1).pt (locOfId locs n2).pt
      bridgeScanFrom locs n1 rest
        (match best with
         | none => some (n1, n2, d)
         | some (_, _, bd) => if d < bd then some (n1, n2, d) else best)

/-- Outer scan of the bridging search over the current component's nodes. -/
def bridgeScan (locs : List Loc) :
    List ℕ → List ℕ → Option (ℕ × ℕ × ℚ) → Option (ℕ × ℕ × ℚ)
  | [], _, best => best
  | n1 :: rest, comp2, best =>
      bridgeScan locs rest comp2 (bridgeScanFrom locs n1 comp2 best)

/-- One repair iteration of `build_enhanced_graph`'s `ensure_connectivity`
block: the closest pair between `components[i]` and the concatenation of the
later components, with no distance threshold and no obstacle check
("Relax obstacle checking for connectivity bridges"). -/
def repairEdges (locs : List Loc) (comps : List (List ℕ)) :
    List (ℕ × ℕ × ℚ) :=
  (List.range (comps.length - 1)).filterMap fun i =>
    bridgeScan locs (comps.getD i []) ((comps.drop (i + 1)).flatten) none

/-- Embeds `build_enhanced_graph(locs, max_intra_aisle_dist,
max_cross_aisle_dist, ensure_connectivity, min_clearance)`: the edge list of
the four construction steps, plus the bridging edges of the connectivity
repair when more than one component remains. -/
def build_enhanced_graph (locs : List Loc) (maxIntraAisleDist maxCrossAisleDist : ℚ)
    (ensureConnectivity : Bool) (minClearance : ℚ) : List (ℕ × ℕ × ℚ) :=
  let trav := traversableIndices locs
  let vGroups := aisleGroups trav fun i => (locs.getD i default).vAisle
  let hGroups := aisleGroups trav fun i => (locs.getD i default).hAisle
  let inter := trav.filter fun i =>
    0 ≤ (locs.getD i default).vAisle ∧ 0 ≤ (locs.getD i default).hAisle
  let e1 := intraAisleEdges locs maxIntraAisleDist minClearance
    (fun i => (locs.getD i default).y) vGroups
  let e2 := intraAisleEdges locs maxIntraAisleDist minClearance
    (fun i => (locs.getD i default).x) hGroups
  let e3 := crossAisleEdges locs maxCrossAisleDist minClearance inter
  let e4 := isolatedEdges locs minClearance trav
  let base := e1 ++ e2 ++ e3 ++ e4
  if ensureConnectivity then
    let comps := connectedComponents
      (trav.map fun i => (locs.getD i default).id) base
    if 1 < comps.length then base ++ repairEdges locs comps else base
  else base

/-- The routing graph `create_graph_from_edges` returns: the traversable rows
as nodes, and the edges among them (first occurrence kept, duplicates in
either orientation skipped, per `G.has_edge`). -/
structure RoutingGraph where
  nodes : List Loc
  edges : List (ℕ × ℕ × ℚ)
deriving Repr

/-- `G.has_edge(a, b)` on an undirected edge list. -/
def hasEdge (es : List (ℕ × ℕ × ℚ)) (a b : ℕ) : Bool :=
  es.any fun e => (e.1 = a ∧ e.2.1 = b) ∨ (e.1 = b ∧ e.2.1 = a)

/-- Embeds `create_graph_from_edges(locs, edges)`. -/
def create_graph_from_edges (locs : List Loc) (edges : List (ℕ × ℕ × ℚ)) :
    RoutingGraph :=
  let travLocs := locs.filter (·.traversable)
  let ids := travLocs.map (·.id)
  { nodes := travLocs
    edges := edges.foldl (fun acc e =>
      if ids.contains e.1 && ids.contains e.2.1 && !(hasEdge acc e.1 e.2.1)
      then acc ++ [e] else acc) [] }

/-- Undirected adjacency in a routing graph. -/
def RoutingGraph.adj (G : RoutingGraph) (a b : ℕ) : Prop :=
  ∃ w, (a, b, w) ∈ G.edges ∨ (b, a, w) ∈ G.edges

/-- Reachability in a routing graph. -/
def RoutingGraph.reach (G : RoutingGraph) : ℕ → ℕ → Prop :=
  Relation.ReflTransGen G.adj

/-- Undirected adjacency in a raw edge list. -/
def adjE (edges : List (ℕ × ℕ × ℚ)) (a b : ℕ) : Prop :=
  ∃ w, (a, b, w) ∈ edges ∨ (b, a, w) ∈ edges

/-- Reachability in a raw edge list. -/
def reachE (edges : List (ℕ × ℕ × ℚ)) : ℕ → ℕ → Prop :=
  Relation.ReflTransGen (adjE edges)

/-! ### Builder edge-membership lemmas -/

lemma getD_mem_of_lt {α : Type} [Inhabited α] (l : List α) (i : ℕ)
    (h : i < l.length) : l.getD i default ∈ l := by
  rw [List.getD_eq_getElem?_getD, List.getElem?_eq_getElem h]
  exact List.getElem_mem h

lemma consecPairs_mem : ∀ (l : List ℕ) (ij : ℕ × ℕ), ij ∈ consecPairs l →
    ij.1 ∈ l ∧ ij.2 ∈ l := by
  intro l
  induction l with
  | nil => intro ij h; simp [consecPairs] at h
  | cons a rest ih =>
    intro ij h
    cases rest with
    | nil => simp [consecPairs] at h
    | cons b rest' =>
      rw [consecPairs, List.mem_cons] at h
      rcases h with rfl | h
      · exact ⟨by simp, by simp⟩
      · obtain ⟨h1, h2⟩ := ih ij h
        exact ⟨List.mem_cons_of_mem _ h1, List.mem_cons_of_mem _ h2⟩

lemma intraAisleEdges_mem (locs : List Loc) (maxd minc : ℚ) (key : ℕ → ℚ)
    (groups : List (List ℕ)) (e : ℕ × ℕ × ℚ)
    (he : e ∈ intraAisleEdges locs maxd minc key groups) :
    ∃ i j, (∃ g ∈ groups, i ∈ g ∧ j ∈ g) ∧
      should_prevent_connection locs i j = false ∧
      is_path_blocked (locs.getD i default).pt (locs.getD j default).pt locs
        minc = false ∧
      e = ((locs.getD i default).id, (locs.getD j default).id,
           sqDist (locs.getD i default).pt (locs.getD j default).pt) := by
  unfold intraAisleEdges at he
  obtain ⟨g, hg, hbody⟩ := List.mem_flatMap.mp he
  by_cases hlen : g.length < 2
  · rw [if_pos hlen] at hbody; simp at hbody
  · rw [if_neg hlen] at hbody
    obtain ⟨ij, hij, hf⟩ := List.mem_filterMap.mp hbody
    obtain ⟨hi, hj⟩ := consecPairs_mem _ ij hij
    rw [List.mem_mergeSort] at hi hj
    refine ⟨ij.1, ij.2, ⟨g, hg, hi, hj⟩, ?_⟩
    by_cases hprev : should_prevent_connection locs ij.1 ij.2 = true
    · rw [if_pos hprev] at hf; exact Option.noConfusion hf
    · rw [Bool.not_eq_true] at hprev
      rw [hprev] at hf
      simp only [Bool.false_eq_true, if_false] at hf
      by_cases hd : sqDist (locs.getD ij.1 default).pt
          (locs.getD ij.2 default).pt ≤ maxd ^ 2
      · rw [if_pos hd] at hf
        by_cases hb : is_path_blocked (locs.getD ij.1 default).pt
            (locs.getD ij.2 default).pt locs minc = true
        · rw [if_pos hb] at hf; exact Option.noConfusion hf
        · rw [Bool.not_eq_true] at hb
          rw [hb] at hf
          simp only [Bool.false_eq_true, if_false, Option.some.injEq] at hf
          exact ⟨hprev, hb, hf.symm⟩
      · rw [if_neg hd] at hf; exact Option.noConfusion hf

lemma crossAisleEdges_mem (locs : List Loc) (maxd minc : ℚ) (inter : List ℕ)
    (e : ℕ × ℕ × ℚ) (he : e ∈ crossAisleEdges locs maxd minc inter) :
    ∃ i j, i ∈ inter ∧ j ∈ inter ∧
      should_prevent_connection locs i j = false ∧
      is_path_blocked (locs.getD i default).pt (locs.getD j default).pt locs
        minc = false ∧
      e = ((locs.getD i default).id, (locs.getD j default).id,
           sqDist (locs.getD i default).pt (locs.getD j default).pt) := by
  unfold crossAisleEdges at he
  obtain ⟨i, hi, hbody⟩ := List.mem_flatMap.mp he
  obtain ⟨j, hj, hf⟩ := List.mem_filterMap.mp hbody
  refine ⟨i, j, hi, hj, ?_⟩
  by_cases hij : i < j
  · rw [if_pos hij] at hf
    by_cases hv : (locs.getD i default).vAisle = (locs.getD j default).vAisle ∧
      0 ≤ (locs.getD i default).vAisle
    · rw [if_pos hv] at hf; exact Option.noConfusion hf
    · rw [if_neg hv] at hf
      by_cases hh : (locs.getD i default).hAisle = (locs.getD j default).hAisle ∧
        0 ≤ (locs.getD i default).hAisle
      · rw [if_pos hh] at hf; exact Option.noConfusion hf
      · rw [if_neg hh] at hf
        by_cases hprev : should_prevent_connection locs i j = true
        · rw [if_pos hprev] at hf; exact Option.noConfusion hf
        · rw [Bool.not_eq_true] at hprev
          rw [hprev] at hf
          simp only [Bool.false_eq_true, if_false] at hf
          by_cases hd : sqDist (locs.getD i default).pt
              (locs.getD j default).pt ≤ maxd ^ 2
          · rw [if_pos hd] at hf
            by_cases hb : is_path_blocked (locs.getD i default).pt
                (locs.getD j default).pt locs minc = true
            · rw [if_pos hb] at hf; exact Option.noConfusion hf
            · rw [Bool.not_eq_true] at hb
              rw [hb] at hf
              simp only [Bool.false_eq_true, if_false, Option.some.injEq] at hf
              exact ⟨hprev, hb, hf.symm⟩
          · rw [if_neg hd] at hf; exact Option.noConfusion hf
  · rw [if_neg hij] at hf; exact Option.noConfusion hf

lemma isolatedEdges_mem (locs : List Loc) (minc : ℚ) (trav : List ℕ)
    (e : ℕ × ℕ × ℚ) (he : e ∈ isolatedEdges locs minc trav) :
    ∃ i j, i ∈ trav ∧ j ∈ trav ∧
      is_path_blocked (locs.getD i default).pt (locs.getD j default).pt locs
        minc = false ∧
      e = ((locs.getD i default).id, (locs.getD j default).id,
           sqDist (locs.getD i default).pt (locs.getD j default).pt) := by
  unfold isolatedEdges at he
  obtain ⟨iso, hiso, hbody⟩ := List.mem_flatMap.mp he
  rw [List.mem_filter] at hiso
  obtain ⟨jd, hjd, heq⟩ := List.mem_map.mp hbody
  have hjd' : jd ∈ (trav.filterMap fun j =>
      if j = iso then none
      else
        if is_path_blocked (locs.getD iso default).pt (locs.getD j default).pt
            locs minc then none
        else some (j, sqDist (locs.getD iso default).pt
          (locs.getD j default).pt)) := by
    exact List.mem_mergeSort.mp (List.mem_of_mem_take hjd)
  obtain ⟨j, hj, hf⟩ := List.mem_filterMap.mp hjd'
  refine ⟨iso, j, hiso.1, hj, ?_⟩
  by_cases hji : j = iso
  · rw [if_pos hji] at hf; exact Option.noConfusion hf
  · rw [if_neg hji] at hf
    by_cases hb : is_path_blocked (locs.getD iso default).pt
        (locs.getD j default).pt locs minc = true
    · rw [if_pos hb] at hf; exact Option.noConfusion hf
    · rw [Bool.not_eq_true] at hb
      rw [hb] at hf
      simp only [Bool.false_eq_true, if_false, Option.some.injEq] at hf
      rw [← heq, ← hf]
      exact ⟨hb, rfl⟩

lemma traversableIndices_lt (locs : List Loc) (i : ℕ)
    (hi : i ∈ traversableIndices locs) : i < locs.length := by
  unfold traversableIndices at hi
  rw [List.mem_filter] at hi
  exact List.mem_range.mp hi.1

lemma aisleGroups_subset (trav : List ℕ) (label : ℕ → ℤ) (g : List ℕ)
    (hg : g ∈ aisleGroups trav label) : ∀ i ∈ g, i ∈ trav := by
  unfold aisleGroups at hg
  obtain ⟨lbl, -, hrfl⟩ := List.mem_map.mp hg
  intro i hi
  rw [← hrfl] at hi
  exact (List.mem_filter.mp hi).1

/-- The edge list of construction steps 1–3 (intra-aisle vertical, intra-aisle
horizontal, cross-aisle at intersections) — the steps guarded by
`should_prevent_connection`. -/
def guardedEdges (locs : List Loc) (maxIntraAisleDist maxCrossAisleDist
    minClearance : ℚ) : List (ℕ × ℕ × ℚ) :=
  let trav := traversableIndices locs
  intraAisleEdges locs maxIntraAisleDist minClearance
      (fun i => (locs.getD i default).y)
      (aisleGroups trav fun i => (locs.getD i default).vAisle) ++
    intraAisleEdges locs maxIntraAisleDist minClearance
      (fun i => (locs.getD i default).x)
      (aisleGroups trav fun i => (locs.getD i default).hAisle) ++
    crossAisleEdges locs maxCrossAisleDist minClearance
      (trav.filter fun i =>
        0 ≤ (locs.getD i default).vAisle ∧ 0 ≤ (locs.getD i default).hAisle)

lemma build_false_eq (locs : List Loc) (maxI maxC minC : ℚ) :
    build_enhanced_graph locs maxI maxC false minC =
      guardedEdges locs maxI maxC minC ++
        isolatedEdges locs minC (traversableIndices locs) := by
  unfold build_enhanced_graph guardedEdges
  simp [List.append_assoc]

/-- **C4 (amended)** — Obstacle-free edge invariant without repair: every edge
produced by the four construction steps of `build_enhanced_graph` (that is,
with `ensure_connectivity=False`, equivalently every pre-repair edge) joins
two location rows whose connecting segment passes the `is_path_blocked` test
with the minimum clearance; connectivity-repair bridging edges are exempt from
this check (see the counterexample). -/
theorem build_edges_unblocked_without_repair (locs : List Loc)
    (maxI maxC minC : ℚ) (e : ℕ × ℕ × ℚ)
    (he : e ∈ build_enhanced_graph locs maxI maxC false minC) :
    ∃ l1 l2, l1 ∈ locs ∧ l2 ∈ locs ∧ l1.id = e.1 ∧ l2.id = e.2.1 ∧
      is_path_blocked l1.pt l2.pt locs minC = false := by
  rw [build_false_eq] at he
  have mk : ∀ i j, i ∈ traversableIndices locs → j ∈ traversableIndices locs →
      is_path_blocked (locs.getD i default).pt (locs.getD j default).pt locs
        minC = false →
      e = ((locs.getD i default).id, (locs.getD j default).id,
           sqDist (locs.getD i default).pt (locs.getD j default).pt) →
      ∃ l1 l2, l1 ∈ locs ∧ l2 ∈ locs ∧ l1.id = e.1 ∧ l2.id = e.2.1 ∧
        is_path_blocked l1.pt l2.pt locs minC = false := by
    intro i j hi hj hb heq
    exact ⟨locs.getD i default, locs.getD j default,
      getD_mem_of_lt locs i (traversableIndices_lt locs i hi),
      getD_mem_of_lt locs j (traversableIndices_lt locs j hj),
      by rw [heq], by rw [heq], hb⟩
  rcases List.mem_append.mp he with hg | hiso
  · unfold guardedEdges at hg
    rcases List.mem_append.mp hg with hg12 | h3
    · rcases List.mem_append.mp hg12 with h1 | h2
      · obtain ⟨i, j, ⟨g, hgm, hi, hj⟩, -, hb, heq⟩ :=
          intraAisleEdges_mem locs maxI minC _ _ e h1
        exact mk i j (aisleGroups_subset _ _ g hgm i hi)
          (aisleGroups_subset _ _ g hgm j hj) hb heq
      · obtain ⟨i, j, ⟨g, hgm, hi, hj⟩, -, hb, heq⟩ :=
          intraAisleEdges_mem locs maxI minC _ _ e h2
        exact mk i j (aisleGroups_subset _ _ g hgm i hi)
          (aisleGroups_subset _ _ g hgm j hj) hb heq
    · obtain ⟨i, j, hi, hj, -, hb, heq⟩ :=
        crossAisleEdges_mem locs maxC minC _ e h3
      exact mk i j (List.mem_of_mem_filter hi) (List.mem_of_mem_filter hj)
        hb heq
  · obtain ⟨i, j, hi, hj, hb, heq⟩ := isolatedEdges_mem locs minC _ e hiso
    exact mk i j hi hj hb heq

/-- **C3 (amended)** — No-shortcut rule as implemented: every edge produced by
the guarded construction steps (intra-aisle consecutive pairs and cross-aisle
intersection pairs) joins two rows that are *not* both rack-labelled on
opposite sides with vertical separation under 20 units — the source's
`should_prevent_connection` test, which replaces the spec's aisle-end-extreme
tolerance test; isolated-node stitching and connectivity-repair bridges are
exempt (see the counterexample, where a repair bridge connects directly
opposite mid-aisle bins). -/
theorem guarded_edges_respect_rack_rule (locs : List Loc)
    (maxI maxC minC : ℚ) (e : ℕ × ℕ × ℚ)
    (he : e ∈ guardedEdges locs maxI maxC minC) :
    ∃ i j,
      e = ((locs.getD i default).id, (locs.getD j default).id,
           sqDist (locs.getD i default).pt (locs.getD j default).pt) ∧
      ¬ (0 ≤ (locs.getD i default).rackId ∧ 0 ≤ (locs.getD j default).rackId ∧
         (locs.getD i default).rackSide ≠ RackSide.noSide ∧
         (locs.getD j default).rackSide ≠ RackSide.noSide ∧
         (locs.getD i default).rackSide ≠ (locs.getD j default).rackSide ∧
         |(locs.getD i default).y - (locs.getD j default).y| < 20) := by
  have hiff : ∀ i j, should_prevent_connection locs i j = false →
      ¬ (0 ≤ (locs.getD i default).rackId ∧ 0 ≤ (locs.getD j default).rackId ∧
         (locs.getD i default).rackSide ≠ RackSide.noSide ∧
         (locs.getD j default).rackSide ≠ RackSide.noSide ∧
         (locs.getD i default).rackSide ≠ (locs.getD j default).rackSide ∧
         |(locs.getD i default).y - (locs.getD j default).y| < 20) := by
    intro i j hsp ⟨h1, h2, h3, h4, h5, h6⟩
    unfold should_prevent_connection at hsp
    rw [if_pos ⟨h1, h2, h3, h4⟩, if_pos h5] at hsp
    exact absurd h6 (by simpa using hsp)
  unfold guardedEdges at he
  rcases List.mem_append.mp he with hg12 | h3
  · rcases List.mem_append.mp hg12 with h1 | h2
    · obtain ⟨i, j, -, hprev, -, heq⟩ :=
        intraAisleEdges_mem locs maxI minC _ _ e h1
      exact ⟨i, j, heq, hiff i j hprev⟩
    · obtain ⟨i, j, -, hprev, -, heq⟩ :=
        intraAisleEdges_mem locs maxI minC _ _ e h2
      exact ⟨i, j, heq, hiff i j hprev⟩
  · obtain ⟨i, j, -, -, hprev, -, heq⟩ :=
      crossAisleEdges_mem locs maxC minC _ e h3
    exact ⟨i, j, heq, hiff i j hprev⟩

/-! ## Rack pairing (`infer_racks_from_bins`,
`src/legacy/warehouse_graph_enhanced.py`)

The rack clusters themselves come from a DBSCAN run (external `sklearn`
code); what the repository implements is the pairing loop over the cluster
ids `sorted(rack_centers.keys())` with their mean x-coordinates.  That loop
is embedded here: `pairLoop` walks the sorted id list; for an unpaired
`rack1` it scans the ids after it (`rack_ids[i+1:]`), skips already-paired
ones, and pairs with the first whose center distance lies in the 10–20 band
(`break`), recording the lower-center rack as `'left'` and the higher as
`'right'` in both dict directions. -/

/-- The mutable state of the pairing loop: the `rack_pairs` dict as an
insertion-ordered association list (both directions recorded), the
`paired_racks` set, and the performed `rack_side` assignments per rack. -/
structure RackPairState where
  pairs : List (ℤ × ℤ)
  paired : List ℤ
  sides : List (ℤ × RackSide)
deriving DecidableEq, Repr

/-- The inner `for rack2 in rack_ids[i+1:]` search: first not-yet-paired rack
whose center distance lies in the 10–20 band. -/
def findPartner (center : ℤ → ℚ) (paired : List ℤ) (rack1 : ℤ) :
    List ℤ → Option ℤ
  | [] => none
  | rack2 :: rest =>
      if rack2 ∈ paired then findPartner center paired rack1 rest
      else if 10 ≤ |center rack1 - center rack2| ∧
          |center rack1 - center rack2| ≤ 20 then some rack2
      else findPartner center paired rack1 rest

/-- The outer `for i, rack1 in enumerate(rack_ids)` loop. -/
def pairLoop (center : ℤ → ℚ) : List ℤ → RackPairState → RackPairState
  | [], st => st
  | rack1 :: rest, st =>
      if rack1 ∈ st.paired then pairLoop center rest st
      else
        match findPartner center st.paired rack1 rest with
        | none => pairLoop center rest st
        | some rack2 =>
            let leftRack := if center rack1 < center rack2 then rack1 else rack2
            let rightRack := if leftRack = rack1 then rack2 else rack1
            pairLoop center rest
              { pairs := st.pairs ++ [(leftRack, rightRack),
                                      (rightRack, leftRack)]
                paired := st.paired ++ [rack1, rack2]
                sides := st.sides ++ [(leftRack, RackSide.left),
                                      (rightRack, RackSide.right)] }

/-- The pairing phase of `infer_racks_from_bins`, applied to the sorted rack
ids and their mean-x centers. -/
def infer_rack_pairs (rackIds : List ℤ) (center : ℤ → ℚ) : RackPairState :=
  pairLoop center rackIds ⟨[], [], []⟩

lemma findPartner_mem (center : ℤ → ℚ) (paired : List ℤ) (rack1 : ℤ) :
    ∀ (l : List ℤ) (rack2 : ℤ), findPartner center paired rack1 l = some rack2 →
      rack2 ∈ l ∧ rack2 ∉ paired ∧
        10 ≤ |center rack1 - center rack2| ∧
        |center rack1 - center rack2| ≤ 20 := by
  intro l
  induction l with
  | nil => intro rack2 h; exact Option.noConfusion h
  | cons a rest ih =>
    intro rack2 h
    rw [findPartner] at h
    by_cases ha : a ∈ paired
    · rw [if_pos ha] at h
      obtain ⟨h1, h2, h3⟩ := ih rack2 h
      exact ⟨List.mem_cons_of_mem _ h1, h2, h3⟩
    · rw [if_neg ha] at h
      by_cases hband : 10 ≤ |center rack1 - center a| ∧
          |center rack1 - center a| ≤ 20
      · rw [if_pos hband] at h
        obtain rfl := Option.some.inj h
        exact ⟨by simp, ha, hband⟩
      · rw [if_neg hband] at h
        obtain ⟨h1, h2, h3⟩ := ih rack2 h
        exact ⟨List.mem_cons_of_mem _ h1, h2, h3⟩

/-- The invariants of the pairing state: symmetric pairs over paired racks,
at most one partner per rack, the 10–20 center band on every pair, the
lower-center rack labelled `'left'` / higher `'right'`, side labels only on
paired racks and at most one side label per rack. -/
def rackStateInv (center : ℤ → ℚ) (st : RackPairState) : Prop :=
  (∀ p ∈ st.pairs, (p.2, p.1) ∈ st.pairs) ∧
  (∀ p ∈ st.pairs, p.1 ∈ st.paired ∧ p.2 ∈ st.paired ∧ p.1 ≠ p.2) ∧
  (∀ a b c : ℤ, (a, b) ∈ st.pairs → (a, c) ∈ st.pairs → b = c) ∧
  (∀ p ∈ st.pairs, 10 ≤ |center p.1 - center p.2| ∧
    |center p.1 - center p.2| ≤ 20 ∧
    (center p.1 < center p.2 →
      (p.1, RackSide.left) ∈ st.sides ∧ (p.2, RackSide.right) ∈ st.sides)) ∧
  (∀ a s, (a, s) ∈ st.sides → a ∈ st.paired) ∧
  (∀ a s1 s2, (a, s1) ∈ st.sides → (a, s2) ∈ st.sides → s1 = s2)


lemma rackStateInv_extend (center : ℤ → ℚ) (st : RackPairState) (A B u v : ℤ)
    (hinv : rackStateInv center st) (hAB : center A < center B)
    (hband : 10 ≤ |center A - center B| ∧ |center A - center B| ≤ 20)
    (hA : A ∉ st.paired) (hB : B ∉ st.paired)
    (huv : (u = A ∧ v = B) ∨ (u = B ∧ v = A)) :
    rackStateInv center
      ⟨st.pairs ++ [(A, B), (B, A)], st.paired ++ [u, v],
       st.sides ++ [(A, RackSide.left), (B, RackSide.right)]⟩ := by
  obtain ⟨hsym, hpaired, hfun, hside, hsp, hsfun⟩ := hinv
  have hABne : A ≠ B := fun hc => absurd (by rw [hc]) (ne_of_lt hAB)
  have hAmem : A ∈ st.paired ++ [u, v] := by
    rcases huv with ⟨hu, hv⟩ | ⟨hu, hv⟩
    · exact List.mem_append_right _ (by simp [← hu])
    · exact List.mem_append_right _ (by simp [← hv])
  have hBmem : B ∈ st.paired ++ [u, v] := by
    rcases huv with ⟨hu, hv⟩ | ⟨hu, hv⟩
    · exact List.mem_append_right _ (by simp [← hv])
    · exact List.mem_append_right _ (by simp [← hu])
  have hnewp : ∀ (a b : ℤ), (a, b) ∈ [(A, B), (B, A)] →
      (a = A ∧ b = B) ∨ (a = B ∧ b = A) := by
    intro a b hab
    rcases List.mem_cons.mp hab with heq | hab'
    · exact Or.inl ⟨(Prod.mk.inj heq).1, (Prod.mk.inj heq).2⟩
    · rcases List.mem_cons.mp hab' with heq | hfalse
      · exact Or.inr ⟨(Prod.mk.inj heq).1, (Prod.mk.inj heq).2⟩
      · simp at hfalse
  have hnews : ∀ (a : ℤ) (s : RackSide),
      (a, s) ∈ [(A, RackSide.left), (B, RackSide.right)] →
      (a = A ∧ s = RackSide.left) ∨ (a = B ∧ s = RackSide.right) := by
    intro a s has
    rcases List.mem_cons.mp has with heq | has'
    · exact Or.inl ⟨(Prod.mk.inj heq).1, (Prod.mk.inj heq).2⟩
    · rcases List.mem_cons.mp has' with heq | hfalse
      · exact Or.inr ⟨(Prod.mk.inj heq).1, (Prod.mk.inj heq).2⟩
      · simp at hfalse
  refine ⟨?_, ?_, ?_, ?_, ?_, ?_⟩
  · intro p hp
    rcases List.mem_append.mp hp with hold | hnew
    · exact List.mem_append_left _ (hsym p hold)
    · rcases hnewp p.1 p.2 (by simpa using hnew) with ⟨h1, h2⟩ | ⟨h1, h2⟩ <;>
        · rw [h1, h2]; exact List.mem_append_right _ (by simp)
  · intro p hp
    rcases List.mem_append.mp hp with hold | hnew
    · obtain ⟨ha, hb, hc⟩ := hpaired p hold
      exact ⟨List.mem_append_left _ ha, List.mem_append_left _ hb, hc⟩
    · rcases hnewp p.1 p.2 (by simpa using hnew) with ⟨h1, h2⟩ | ⟨h1, h2⟩
      · exact ⟨h1 ▸ hAmem, h2 ▸ hBmem, by rw [h1, h2]; exact hABne⟩
      · exact ⟨h1 ▸ hBmem, h2 ▸ hAmem, by rw [h1, h2]; exact hABne.symm⟩
  · intro a b c hab hac
    rcases List.mem_append.mp hab with hab1 | hab2 <;>
      rcases List.mem_append.mp hac with hac1 | hac2
    · exact hfun a b c hab1 hac1
    · rcases hnewp a c hac2 with ⟨h1, -⟩ | ⟨h1, -⟩
      · exact absurd ((hpaired _ hab1).1) (h1 ▸ hA)
      · exact absurd ((hpaired _ hab1).1) (h1 ▸ hB)
    · rcases hnewp a b hab2 with ⟨h1, -⟩ | ⟨h1, -⟩
      · exact absurd ((hpaired _ hac1).1) (h1 ▸ hA)
      · exact absurd ((hpaired _ hac1).1) (h1 ▸ hB)
    · rcases hnewp a b hab2 with ⟨h1, h2⟩ | ⟨h1, h2⟩ <;>
        rcases hnewp a c hac2 with ⟨h3, h4⟩ | ⟨h3, h4⟩
      · rw [h2, h4]
      · exact absurd (h1.symm.trans h3) hABne
      · exact absurd (h3.symm.trans h1) hABne
      · rw [h2, h4]
  · intro p hp
    rcases List.mem_append.mp hp with hold | hnew
    · obtain ⟨hb1, hb2, hs⟩ := hside p hold
      exact ⟨hb1, hb2, fun hc => ⟨List.mem_append_left _ (hs hc).1,
        List.mem_append_left _ (hs hc).2⟩⟩
    · rcases hnewp p.1 p.2 (by simpa using hnew) with ⟨h1, h2⟩ | ⟨h1, h2⟩
      · refine ⟨by rw [h1, h2]; exact hband.1, by rw [h1, h2]; exact hband.2,
          fun _ => ?_⟩
        exact ⟨by rw [h1]; exact List.mem_append_right _ (by simp),
               by rw [h2]; exact List.mem_append_right _ (by simp)⟩
      · refine ⟨by rw [h1, h2, abs_sub_comm]; exact hband.1,
          by rw [h1, h2, abs_sub_comm]; exact hband.2, fun hc => ?_⟩
        rw [h1, h2] at hc
        exact absurd hAB (not_lt.mpr (le_of_lt hc))
  · intro a s hs
    rcases List.mem_append.mp hs with hold | hnew
    · exact List.mem_append_left _ (hsp a s hold)
    · rcases hnews a s hnew with ⟨h1, -⟩ | ⟨h1, -⟩
      · exact h1 ▸ hAmem
      · exact h1 ▸ hBmem
  · intro a s1 s2 hs1 hs2
    rcases List.mem_append.mp hs1 with h1' | h1'' <;>
      rcases List.mem_append.mp hs2 with h2' | h2''
    · exact hsfun a s1 s2 h1' h2'
    · rcases hnews a s2 h2'' with ⟨h1, -⟩ | ⟨h1, -⟩
      · exact absurd (hsp a s1 h1') (h1 ▸ hA)
      · exact absurd (hsp a s1 h1') (h1 ▸ hB)
    · rcases hnews a s1 h1'' with ⟨h1, -⟩ | ⟨h1, -⟩
      · exact absurd (hsp a s2 h2') (h1 ▸ hA)
      · exact absurd (hsp a s2 h2') (h1 ▸ hB)
    · rcases hnews a s1 h1'' with ⟨h1, h2⟩ | ⟨h1, h2⟩ <;>
        rcases hnews a s2 h2'' with ⟨h3, h4⟩ | ⟨h3, h4⟩
      · rw [h2, h4]
      · exact absurd (h1.symm.trans h3) hABne
      · exact absurd (h3.symm.trans h1) hABne
      · rw [h2, h4]

lemma pairLoop_inv (center : ℤ → ℚ) :
    ∀ (ids : List ℤ) (st : RackPairState), rackStateInv center st →
      rackStateInv center (pairLoop center ids st) := by
  intro ids
  induction ids with
  | nil => intro st h; exact h
  | cons rack1 rest ih =>
    intro st h
    rw [pairLoop]
    by_cases h1 : rack1 ∈ st.paired
    · rw [if_pos h1]; exact ih st h
    · rw [if_neg h1]
      cases hfp : findPartner center st.paired rack1 rest with
      | none => exact ih st h
      | some rack2 =>
        obtain ⟨-, h2, hband⟩ := findPartner_mem center st.paired rack1 rest
          rack2 hfp
        have hcne : center rack1 ≠ center rack2 := by
          intro hceq
          rw [hceq, sub_self, abs_zero] at hband
          linarith [hband.1]
        have hne : rack1 ≠ rack2 := fun hc => hcne (by rw [hc])
        dsimp only
        by_cases hc : center rack1 < center rack2
        · rw [if_pos hc, if_pos rfl]
          exact ih _ (rackStateInv_extend center st rack1 rack2 rack1 rack2 h
            hc hband h1 h2 (Or.inl ⟨rfl, rfl⟩))
        · rw [if_neg hc, if_neg (Ne.symm hne)]
          exact ih _ (rackStateInv_extend center st rack2 rack1 rack1 rack2 h
            (lt_of_le_of_ne (not_lt.mp hc) (Ne.symm hcne))
            (by rw [abs_sub_comm]; exact hband) h2 h1 (Or.inr ⟨rfl, rfl⟩))

/-- **C7** — Rack pairing symmetry and discipline: for every sorted rack-id
list and center assignment, the pairing produced by `infer_racks_from_bins`'s
pairing loop is symmetric (if B is recorded as A's partner then A is recorded
as B's), each rack is recorded with at most one partner, every recorded pair's
centers differ by an amount in the 10–20 band, the lower-mean-x rack of each
pair is labelled `'left'` and the higher `'right'`, and each rack receives at
most one side label.  The ascending scan with first-match tie-break and the
skipping of already-paired racks are the structure of `pairLoop` /
`findPartner` themselves. -/
theorem infer_rack_pairs_spec (rackIds : List ℤ) (center : ℤ → ℚ) :
    (∀ p ∈ (infer_rack_pairs rackIds center).pairs,
      (p.2, p.1) ∈ (infer_rack_pairs rackIds center).pairs) ∧
    (∀ a b c : ℤ, (a, b) ∈ (infer_rack_pairs rackIds center).pairs →
      (a, c) ∈ (infer_rack_pairs rackIds center).pairs → b = c) ∧
    (∀ p ∈ (infer_rack_pairs rackIds center).pairs,
      p.1 ≠ p.2 ∧ 10 ≤ |center p.1 - center p.2| ∧
      |center p.1 - center p.2| ≤ 20 ∧
      (center p.1 < center p.2 →
        (p.1, RackSide.left) ∈ (infer_rack_pairs rackIds center).sides ∧
        (p.2, RackSide.right) ∈ (infer_rack_pairs rackIds center).sides)) ∧
    (∀ (a : ℤ) (s1 s2 : RackSide),
      (a, s1) ∈ (infer_rack_pairs rackIds center).sides →
      (a, s2) ∈ (infer_rack_pairs rackIds center).sides → s1 = s2) := by
  have hinv : rackStateInv center (infer_rack_pairs rackIds center) := by
    refine pairLoop_inv center rackIds ⟨[], [], []⟩
      ⟨fun p hp => absurd hp (by simp), fun p hp => absurd hp (by simp),
       fun a b c hab _ => absurd hab (by simp),
       fun p hp => absurd hp (by simp), fun a s hs => absurd hs (by simp),
       fun a s1 s2 hs1 _ => absurd hs1 (by simp)⟩
  obtain ⟨hsym, hpaired, hfun, hside, -, hsfun⟩ := hinv
  exact ⟨hsym, hfun, fun p hp => ⟨(hpaired p hp).2.2, (hside p hp).1,
    (hside p hp).2.1, (hside p hp).2.2⟩, hsfun⟩

/-! ### Concrete layouts refuting the universal blocking/no-shortcut claims -/

/-- Two three-bin racks facing each other across an aisle: left rack bins at
x ∈ {0, 1, 0} (mean 1/3), right rack bins at x ∈ {15, 14, 15} (mean 44/3),
bin levels y ∈ {0, 15, 30} on both sides.  The annotation columns are the
ones the upstream clustering produces on these coordinates: each rack is one
x-cluster (spread 1 < 5 tolerance) and hence one vertical aisle of size 3; no
horizontal aisle forms (two bins per level, below the minimum aisle size 3);
the rack centers differ by 43/3 ≈ 14.33, inside the 10–20 pairing band, so
rack 0 is `'left'` and rack 1 is `'right'`. -/
def locsPair : List Loc :=
  [ ⟨0, 0,  0,  .picking, 2, 2, true, 0, -1, 0, .left⟩,
    ⟨1, 1,  15, .picking, 2, 2, true, 0, -1, 0, .left⟩,
    ⟨2, 0,  30, .picking, 2, 2, true, 0, -1, 0, .left⟩,
    ⟨3, 15, 0,  .picking, 2, 2, true, 1, -1, 1, .right⟩,
    ⟨4, 14, 15, .picking, 2, 2, true, 1, -1, 1, .right⟩,
    ⟨5, 15, 30, .picking, 2, 2, true, 1, -1, 1, .right⟩ ]

set_option maxHeartbeats 4000000 in
lemma locsPair_build :
    build_enhanced_graph locsPair 20 15 true 1 =
      [(0, 1, 226), (1, 2, 226), (3, 4, 226), (4, 5, 226), (1, 4, 169)] := by
  norm_num +decide [build_enhanced_graph, traversableIndices, aisleGroups,
    labelsInOrder, intraAisleEdges, crossAisleEdges, isolatedEdges,
    consecPairs, should_prevent_connection, is_path_blocked,
    check_line_intersects_obstacle, line_segments_intersect, rectEdges,
    sqDist, Loc.pt, connectedComponents, addEdgeComps, repairEdges,
    bridgeScan, bridgeScanFrom, locOfId, locsPair, List.range,
    List.mergeSort, List.merge, List.getD, List.filterMap, List.flatMap,
    List.foldl, List.filter, List.map, List.take, List.any, List.flatten,
    List.find?, abs_of_nonneg, abs_of_nonpos]

set_option maxHeartbeats 1000000 in
lemma locsPair_graph :
    (create_graph_from_edges locsPair
        (build_enhanced_graph locsPair 20 15 true 1)).edges =
      [(0, 1, 226), (1, 2, 226), (3, 4, 226), (4, 5, 226), (1, 4, 169)] := by
  rw [locsPair_build]
  norm_num +decide [create_graph_from_edges, hasEdge, locsPair, List.foldl,
    List.filter, List.map, List.any]

/-- **C3 counterexample** — the two racks of `locsPair` are paired (rack 0
left, rack 1 right, mean-x centers 1/3 and 44/3, 43/3 apart, in the band);
bins 1 and 4 are mid-aisle members of opposite sides — their y-coordinate 15
is 15 > 5 units away from both aisle-extreme bin levels, 0 and 30 — yet the
built routing graph (default thresholds 20/15, clearance 1) contains a direct
edge between them, added by connectivity repair as the closest
cross-component pair. -/
theorem no_shortcut_invariant_fails :
    locsPair.map (·.y) = [0, 15, 30, 0, 15, 30] ∧
    (locsPair.getD 1 default).rackId = 0 ∧
    (locsPair.getD 4 default).rackId = 1 ∧
    (locsPair.getD 1 default).rackSide = RackSide.left ∧
    (locsPair.getD 4 default).rackSide = RackSide.right ∧
    (0, 1) ∈ (infer_rack_pairs [0, 1]
      (fun r => if r = 0 then 1 / 3 else 44 / 3)).pairs ∧
    (5 : ℚ) < |(locsPair.getD 1 default).y - 0| ∧
    (5 : ℚ) < |(locsPair.getD 1 default).y - 30| ∧
    (5 : ℚ) < |(locsPair.getD 4 default).y - 0| ∧
    (5 : ℚ) < |(locsPair.getD 4 default).y - 30| ∧
    ((locsPair.getD 1 default).id, (locsPair.getD 4 default).id, (169 : ℚ)) ∈
      (create_graph_from_edges locsPair
        (build_enhanced_graph locsPair 20 15 true 1)).edges := by
  refine ⟨by norm_num [locsPair], by norm_num [locsPair, List.getD],
    by norm_num [locsPair, List.getD], by norm_num [locsPair, List.getD],
    by norm_num [locsPair, List.getD], ?_, by norm_num [locsPair, List.getD],
    by norm_num [locsPair, List.getD], by norm_num [locsPair, List.getD],
    by norm_num [locsPair, List.getD], ?_⟩
  · norm_num [infer_rack_pairs, pairLoop, findPartner, abs_of_nonneg,
      abs_of_nonpos]
  · rw [locsPair_graph]
    norm_num [locsPair, List.getD]

/-- Two aisles of three traversable waypoints each (x = 0 and x = 30, levels
y ∈ {0, 15, 30}), separated by a non-traversable wall: a 4 × 100 obstacle
centred at (15, 15), spanning x ∈ [13, 17] and all relevant y.  Each aisle is
one DBSCAN x-cluster of size 3 (vertical aisle); no horizontal aisles (two
points per level); no racks (no picking locations, so `infer_racks_from_bins`
leaves every `rack_id` at −1). -/
def locsWall : List Loc :=
  [ ⟨0, 0, 0, .aisle, 0, 0, true, 0, -1, -1, .noSide⟩,
    ⟨1, 0, 15, .aisle, 0, 0, true, 0, -1, -1, .noSide⟩,
    ⟨2, 0, 30, .aisle, 0, 0, true, 0, -1, -1, .noSide⟩,
    ⟨3, 30, 0, .aisle, 0, 0, true, 1, -1, -1, .noSide⟩,
    ⟨4, 30, 15, .aisle, 0, 0, true, 1, -1, -1, .noSide⟩,
    ⟨5, 30, 30, .aisle, 0, 0, true, 1, -1, -1, .noSide⟩,
    ⟨6, 15, 15, .other, 4, 100, false, -1, -1, -1, .noSide⟩ ]

set_option maxHeartbeats 4000000 in
lemma locsWall_build :
    build_enhanced_graph locsWall 20 15 true 1 =
      [(0, 1, 225), (1, 2, 225), (3, 4, 225), (4, 5, 225), (2, 5, 900)] := by
  norm_num +decide [build_enhanced_graph, traversableIndices, aisleGroups,
    labelsInOrder, intraAisleEdges, crossAisleEdges, isolatedEdges,
    consecPairs, should_prevent_connection, is_path_blocked,
    check_line_intersects_obstacle, line_segments_intersect, rectEdges,
    sqDist, Loc.pt, connectedComponents, addEdgeComps, repairEdges,
    bridgeScan, bridgeScanFrom, locOfId, locsWall, List.range,
    List.mergeSort, List.merge, List.getD, List.filterMap, List.flatMap,
    List.foldl, List.filter, List.map, List.take, List.any, List.flatten,
    List.find?, abs_of_nonneg, abs_of_nonpos]

set_option maxHeartbeats 1000000 in
lemma locsWall_graph :
    (create_graph_from_edges locsWall
        (build_enhanced_graph locsWall 20 15 true 1)).edges =
      [(0, 1, 225), (1, 2, 225), (3, 4, 225), (4, 5, 225), (2, 5, 900)] := by
  rw [locsWall_build]
  norm_num +decide [create_graph_from_edges, hasEdge, locsWall, List.foldl,
    List.filter, List.map, List.any]

/-- **C4 counterexample** — in `locsWall`, the two aisle components can only
be bridged across the wall; connectivity repair adds the bridging edge
`(2, 5)` between nodes (0, 30) and (30, 30) even though the segment fails the
obstacle test (`is_path_blocked` is true for it, the wall expanded by the
clearance spanning x ∈ [12, 18] and the segment's y = 30 lying well inside
the expanded footprint's y-range).  So not every edge of the built graph is
obstacle-free. -/
theorem bridge_edge_crosses_obstacle :
    (locsWall.getD 6 default).traversable = false ∧
    ((locsWall.getD 2 default).id, (locsWall.getD 5 default).id, (900 : ℚ)) ∈
      (create_graph_from_edges locsWall
        (build_enhanced_graph locsWall 20 15 true 1)).edges ∧
    is_path_blocked (locsWall.getD 2 default).pt (locsWall.getD 5 default).pt
      locsWall 1 = true := by
  refine ⟨by norm_num [locsWall, List.getD], ?_, ?_⟩
  · rw [locsWall_graph]
    norm_num [locsWall, List.getD]
  · norm_num [is_path_blocked, check_line_intersects_obstacle,
      line_segments_intersect, rectEdges, sqDist, Loc.pt, locsWall,
      List.getD, List.any, abs_of_nonneg, abs_of_nonpos]

/-! ### Connectivity of the repaired graph (C1) -/

lemma adjE_symm (edges : List (ℕ × ℕ × ℚ)) : Symmetric (adjE edges) := by
  intro a b ⟨w, h⟩
  exact ⟨w, h.symm⟩

lemma reachE_symm (edges : List (ℕ × ℕ × ℚ)) : Symmetric (reachE edges) :=
  Relation.ReflTransGen.symmetric (adjE_symm edges)

lemma reachE_mono (E E' : List (ℕ × ℕ × ℚ)) (hsub : ∀ e ∈ E, e ∈ E')
    (a b : ℕ) (h : reachE E a b) : reachE E' a b := by
  refine Relation.ReflTransGen.mono ?_ h
  intro x y ⟨w, hw⟩
  rcases hw with hw | hw
  · exact ⟨w, Or.inl (hsub _ hw)⟩
  · exact ⟨w, Or.inr (hsub _ hw)⟩

/-- The invariant under which the union-merge components are sound: classes
are nonempty, contain only nodes, cover the nodes, and are internally
connected under the edge list `E`. -/
def compInv (nodes : List ℕ) (E : List (ℕ × ℕ × ℚ))
    (comps : List (List ℕ)) : Prop :=
  (∀ c ∈ comps, c ≠ []) ∧
  (∀ c ∈ comps, ∀ x ∈ c, x ∈ nodes) ∧
  (∀ n ∈ nodes, ∃ c ∈ comps, n ∈ c) ∧
  (∀ c ∈ comps, ∀ x ∈ c, ∀ y ∈ c, reachE E x y)

lemma addEdgeComps_inv (nodes : List ℕ) (E : List (ℕ × ℕ × ℚ))
    (comps : List (List ℕ)) (a b : ℕ) (w : ℚ) (hE : (a, b, w) ∈ E)
    (h : compInv nodes E comps) : compInv nodes E (addEdgeComps comps a b) := by
  obtain ⟨hne, hsub, hcov, hconn⟩ := h
  unfold addEdgeComps
  by_cases hg : ((comps.any fun c => c.contains a) &&
      (comps.any fun c => c.contains b)) = true
  · rw [if_pos hg]
    obtain ⟨hga, hgb⟩ := Bool.and_eq_true_iff.mp hg
    obtain ⟨ca, hca, hcaa⟩ := List.any_eq_true.mp hga
    obtain ⟨cb, hcb, hcbb⟩ := List.any_eq_true.mp hgb
    rw [List.elem_iff] at hcaa hcbb
    have hcamem : ca ∈ comps.filter fun c => c.contains a || c.contains b := by
      rw [List.mem_filter]
      refine ⟨hca, ?_⟩
      rw [Bool.or_eq_true, List.elem_iff, List.elem_iff]
      exact Or.inl hcaa
    have hcbmem : cb ∈ comps.filter fun c => c.contains a || c.contains b := by
      rw [List.mem_filter]
      refine ⟨hcb, ?_⟩
      rw [Bool.or_eq_true, List.elem_iff, List.elem_iff]
      exact Or.inr hcbb
    have hflatsub : ∀ x, x ∈ (comps.filter fun c =>
        c.contains a || c.contains b).flatten → ∃ c ∈ comps, x ∈ c ∧
          (a ∈ c ∨ b ∈ c) := by
      intro x hx
      obtain ⟨c, hc, hxc⟩ := List.mem_flatten.mp hx
      rw [List.mem_filter, Bool.or_eq_true, List.elem_iff, List.elem_iff] at hc
      exact ⟨c, hc.1, hxc, hc.2⟩
    have hreachab : reachE E a b :=
      Relation.ReflTransGen.single ⟨w, Or.inl hE⟩
    have hflatreach : ∀ x, x ∈ (comps.filter fun c =>
        c.contains a || c.contains b).flatten → reachE E x a := by
      intro x hx
      obtain ⟨c, hc, hxc, hab⟩ := hflatsub x hx
      rcases hab with hac | hbc
      · exact hconn c hc x hxc a hac
      · exact Relation.ReflTransGen.trans (hconn c hc x hxc b hbc)
          (reachE_symm E hreachab)
    refine ⟨?_, ?_, ?_, ?_⟩
    · intro c hc
      rcases List.mem_append.mp hc with hc' | hc'
      · exact hne c (List.mem_of_mem_filter hc')
      · rw [List.mem_singleton] at hc'
        subst hc'
        intro hfe
        have : a ∈ (comps.filter fun c =>
            c.contains a || c.contains b).flatten :=
          List.mem_flatten.mpr ⟨ca, hcamem, hcaa⟩
        rw [hfe] at this
        simp at this
    · intro c hc x hx
      rcases List.mem_append.mp hc with hc' | hc'
      · exact hsub c (List.mem_of_mem_filter hc') x hx
      · rw [List.mem_singleton] at hc'
        subst hc'
        obtain ⟨c', hc', hxc', -⟩ := hflatsub x hx
        exact hsub c' hc' x hxc'
    · intro n hn
      obtain ⟨c, hc, hnc⟩ := hcov n hn
      by_cases htouch : (c.contains a || c.contains b) = true
      · refine ⟨(comps.filter fun c => c.contains a || c.contains b).flatten,
          List.mem_append_right _ (by simp), ?_⟩
        exact List.mem_flatten.mpr ⟨c, List.mem_filter.mpr ⟨hc, htouch⟩, hnc⟩
      · refine ⟨c, List.mem_append_left _ ?_, hnc⟩
        rw [List.mem_filter]
        exact ⟨hc, by rw [Bool.not_eq_true] at htouch; rw [htouch]; rfl⟩
    · intro c hc x hx y hy
      rcases List.mem_append.mp hc with hc' | hc'
      · exact hconn c (List.mem_of_mem_filter hc') x hx y hy
      · rw [List.mem_singleton] at hc'
        subst hc'
        exact Relation.ReflTransGen.trans (hflatreach x hx)
          (reachE_symm E (hflatreach y hy))
  · rw [if_neg hg]
    exact ⟨hne, hsub, hcov, hconn⟩

lemma ccFoldl_inv (nodes : List ℕ) (E : List (ℕ × ℕ × ℚ)) :
    ∀ (es : List (ℕ × ℕ × ℚ)) (comps : List (List ℕ)),
      (∀ e ∈ es, e ∈ E) → compInv nodes E comps →
      compInv nodes E
        (es.foldl (fun cs e => addEdgeComps cs e.1 e.2.1) comps) := by
  intro es
  induction es with
  | nil => intro comps _ h; exact h
  | cons e rest ih =>
    intro comps hsub h
    rw [List.foldl_cons]
    refine ih _ (fun e' he' => hsub e' (List.mem_cons_of_mem _ he')) ?_
    exact addEdgeComps_inv nodes E comps e.1 e.2.1 e.2.2
      (by simpa using hsub e (by simp)) h

lemma connectedComponents_inv (nodes : List ℕ) (E : List (ℕ × ℕ × ℚ)) :
    compInv nodes E (connectedComponents nodes E) := by
  refine ccFoldl_inv nodes E E (nodes.map fun n => [n]) (fun e he => he) ?_
  refine ⟨?_, ?_, ?_, ?_⟩
  · intro c hc
    obtain ⟨n, -, hrfl⟩ := List.mem_map.mp hc
    rw [← hrfl]
    simp
  · intro c hc x hx
    obtain ⟨n, hn, hrfl⟩ := List.mem_map.mp hc
    rw [← hrfl] at hx
    rw [List.mem_singleton] at hx
    rw [hx]
    exact hn
  · intro n hn
    exact ⟨[n], List.mem_map.mpr ⟨n, hn, rfl⟩, by simp⟩
  · intro c hc x hx y hy
    obtain ⟨n, -, hrfl⟩ := List.mem_map.mp hc
    rw [← hrfl] at hx hy
    rw [List.mem_singleton] at hx hy
    rw [hx, hy]
    exact Relation.ReflTransGen.refl

lemma bridgeScanFrom_carry (locs : List Loc) (n1 : ℕ) :
    ∀ (l : List ℕ) (best : Option (ℕ × ℕ × ℚ)) (u v : ℕ) (d : ℚ),
      bridgeScanFrom locs n1 l best = some (u, v, d) →
      best = some (u, v, d) ∨ (u = n1 ∧ v ∈ l) := by
  intro l
  induction l with
  | nil => intro best u v d h; exact Or.inl h
  | cons n2 rest ih =>
    intro best u v d h
    simp only [bridgeScanFrom] at h
    rcases ih _ u v d h with hb | ⟨hu, hv⟩
    · cases best with
      | none =>
        obtain ⟨h1, h2, -⟩ : n1 = u ∧ n2 = v ∧ _ := by
          simpa [Prod.ext_iff] using hb
        exact Or.inr ⟨h1.symm, by rw [← h2]; simp⟩
      | some b =>
        obtain ⟨bu, bv, bd⟩ := b
        dsimp only at hb
        by_cases hlt : sqDist (locOfId locs n1).pt (locOfId locs n2).pt < bd
        · rw [if_pos hlt] at hb
          obtain ⟨h1, h2, -⟩ : n1 = u ∧ n2 = v ∧ _ := by
            simpa [Prod.ext_iff] using hb
          exact Or.inr ⟨h1.symm, by rw [← h2]; simp⟩
        · rw [if_neg hlt] at hb
          exact Or.inl hb
    · exact Or.inr ⟨hu, List.mem_cons_of_mem _ hv⟩

lemma bridgeScanFrom_isSome (locs : List Loc) (n1 : ℕ) :
    ∀ (l : List ℕ) (best : Option (ℕ × ℕ × ℚ)),
      (best.isSome = true ∨ l ≠ []) →
      (bridgeScanFrom locs n1 l best).isSome = true := by
  intro l
  induction l with
  | nil =>
    intro best h
    rcases h with h | h
    · exact h
    · exact absurd rfl h
  | cons n2 rest ih =>
    intro best h
    simp only [bridgeScanFrom]
    refine ih _ (Or.inl ?_)
    cases best with
    | none => rfl
    | some b =>
      obtain ⟨bu, bv, bd⟩ := b
      dsimp only
      by_cases hlt : sqDist (locOfId locs n1).pt (locOfId locs n2).pt < bd
      · rw [if_pos hlt]; rfl
      · rw [if_neg hlt]; rfl

lemma bridgeScan_carry (locs : List Loc) :
    ∀ (c1 c2 : List ℕ) (best : Option (ℕ × ℕ × ℚ)) (u v : ℕ) (d : ℚ),
      bridgeScan locs c1 c2 best = some (u, v, d) →
      best = some (u, v, d) ∨ (u ∈ c1 ∧ v ∈ c2) := by
  intro c1
  induction c1 with
  | nil => intro c2 best u v d h; exact Or.inl h
  | cons n1 rest ih =>
    intro c2 best u v d h
    rw [bridgeScan] at h
    rcases ih _ _ u v d h with hb | ⟨hu, hv⟩
    · rcases bridgeScanFrom_carry locs n1 c2 best u v d hb with hb' | ⟨hu, hv⟩
      · exact Or.inl hb'
      · exact Or.inr ⟨by rw [hu]; simp, hv⟩
    · exact Or.inr ⟨List.mem_cons_of_mem _ hu, hv⟩

lemma bridgeScan_isSome (locs : List Loc) :
    ∀ (c1 c2 : List ℕ) (best : Option (ℕ × ℕ × ℚ)),
      (best.isSome = true ∨ (c1 ≠ [] ∧ c2 ≠ [])) →
      (bridgeScan locs c1 c2 best).isSome = true := by
  intro c1
  induction c1 with
  | nil =>
    intro c2 best h
    rcases h with h | ⟨h, -⟩
    · exact h
    · exact absurd rfl h
  | cons n1 rest ih =>
    intro c2 best h
    rw [bridgeScan]
    rcases h with h | ⟨-, h2⟩
    · exact ih _ _ (Or.inl (bridgeScanFrom_isSome locs n1 c2 best (Or.inl h)))
    · exact ih _ _ (Or.inl (bridgeScanFrom_isSome locs n1 c2 best (Or.inr h2)))

lemma headI_mem_of_ne_nil (l : List ℕ) (h : l ≠ []) : l.headI ∈ l := by
  cases l with
  | nil => exact absurd rfl h
  | cons a rest => simp

lemma reach_last (locs : List Loc) (E : List (ℕ × ℕ × ℚ))
    (comps : List (List ℕ)) (hne : ∀ c ∈ comps, c ≠ [])
    (hconn : ∀ c ∈ comps, ∀ x ∈ c, ∀ y ∈ c, reachE E x y) :
    ∀ (k i : ℕ), comps.length - i ≤ k → i < comps.length →
      ∀ x ∈ comps.getD i [],
        reachE (E ++ repairEdges locs comps) x
          ((comps.getD (comps.length - 1) []).headI) := by
  intro k
  induction k with
  | zero =>
    intro i hk hi x hx
    omega
  | succ k ih =>
    intro i hk hi x hx
    have hgetD : ∀ j, j < comps.length → comps.getD j [] ∈ comps := by
      intro j hj
      rw [List.getD_eq_getElem?_getD, List.getElem?_eq_getElem hj]
      exact List.getElem_mem hj
    by_cases hlast : i = comps.length - 1
    · subst hlast
      have hcmem := hgetD (comps.length - 1) hi
      have hh := headI_mem_of_ne_nil _ (hne _ hcmem)
      exact reachE_mono E _ (fun e he => List.mem_append_left _ he) _ _
        (hconn _ hcmem x hx _ hh)
    · have hilt : i < comps.length - 1 := by omega
      have hc1ne : comps.getD i [] ≠ [] := hne _ (hgetD i hi)
      have hi1 : i + 1 < comps.length := by omega
      have hdropne : (comps.drop (i + 1)).flatten ≠ [] := by
        have hmemdrop : comps.getD (i + 1) [] ∈ comps.drop (i + 1) := by
          have hlen : 0 < (comps.drop (i + 1)).length := by
            rw [List.length_drop]; omega
          have : (comps.drop (i + 1))[0] = comps[i + 1] := by
            rw [List.getElem_drop]
          rw [List.getD_eq_getElem?_getD, List.getElem?_eq_getElem hi1]
          rw [← this]
          exact List.getElem_mem hlen
        have hcne := hne _ (hgetD (i + 1) hi1)
        obtain ⟨y0, hy0⟩ := List.exists_mem_of_ne_nil _ hcne
        exact List.ne_nil_of_mem (List.mem_flatten.mpr ⟨_, hmemdrop, hy0⟩)
      have hsome := bridgeScan_isSome locs (comps.getD i [])
        ((comps.drop (i + 1)).flatten) none (Or.inr ⟨hc1ne, hdropne⟩)
      obtain ⟨⟨u, v, d⟩, hbr⟩ := Option.isSome_iff_exists.mp hsome
      rcases bridgeScan_carry locs _ _ none u v d hbr with hnone | ⟨hu, hv⟩
      · exact Option.noConfusion hnone
      · have hbridge : (u, v, d) ∈ repairEdges locs comps := by
          unfold repairEdges
          exact List.mem_filterMap.mpr ⟨i, List.mem_range.mpr hilt, hbr⟩
        obtain ⟨c', hc', hvc'⟩ := List.mem_flatten.mp hv
        obtain ⟨k', hk', hck'⟩ := List.mem_iff_getElem.mp hc'
        have hk'len : i + 1 + k' < comps.length := by
          rw [List.length_drop] at hk'
          omega
        have hvj : v ∈ comps.getD (i + 1 + k') [] := by
          rw [List.getD_eq_getElem?_getD, List.getElem?_eq_getElem hk'len]
          rw [show comps[i + 1 + k'] = c' by rw [← hck', List.getElem_drop]]
          exact hvc'
        have hreachxu : reachE (E ++ repairEdges locs comps) x u :=
          reachE_mono E _ (fun e he => List.mem_append_left _ he) _ _
            (hconn _ (hgetD i hi) x hx u hu)
        have hadjuv : adjE (E ++ repairEdges locs comps) u v :=
          ⟨d, Or.inl (List.mem_append_right _ hbridge)⟩
        have hreachvr := ih (i + 1 + k') (by omega) hk'len v hvj
        exact Relation.ReflTransGen.trans hreachxu
          (Relation.ReflTransGen.trans (Relation.ReflTransGen.single hadjuv)
            hreachvr)

lemma create_grow (ids : List ℕ) :
    ∀ (es acc : List (ℕ × ℕ × ℚ)), ∀ e ∈ acc,
      e ∈ es.foldl (fun acc e =>
        if ids.contains e.1 && ids.contains e.2.1 && !(hasEdge acc e.1 e.2.1)
        then acc ++ [e] else acc) acc := by
  intro es
  induction es with
  | nil => intro acc e he; exact he
  | cons e' rest ih =>
    intro acc e he
    rw [List.foldl_cons]
    refine ih _ e ?_
    by_cases hcond : (ids.contains e'.1 && ids.contains e'.2.1 &&
        !(hasEdge acc e'.1 e'.2.1)) = true
    · rw [if_pos hcond]; exact List.mem_append_left _ he
    · rw [if_neg hcond]; exact he

lemma create_adj_aux (ids : List ℕ) :
    ∀ (es acc : List (ℕ × ℕ × ℚ)) (a b : ℕ) (w : ℚ),
      (a, b, w) ∈ es → ids.contains a = true → ids.contains b = true →
      ∃ w', (a, b, w') ∈ es.foldl (fun acc e =>
          if ids.contains e.1 && ids.contains e.2.1 &&
              !(hasEdge acc e.1 e.2.1) then acc ++ [e] else acc) acc ∨
        (b, a, w') ∈ es.foldl (fun acc e =>
          if ids.contains e.1 && ids.contains e.2.1 &&
              !(hasEdge acc e.1 e.2.1) then acc ++ [e] else acc) acc := by
  intro es
  induction es with
  | nil => intro acc a b w hmem; simp at hmem
  | cons e' rest ih =>
    intro acc a b w hmem ha hb
    rw [List.foldl_cons]
    rcases List.mem_cons.mp hmem with rfl | hmem'
    · by_cases hhe : hasEdge acc a b = true
      · obtain ⟨e0, he0, hcond⟩ := List.any_eq_true.mp hhe
        rw [decide_eq_true_eq] at hcond
        have he0' : e0 ∈ (if ids.contains (a, b, w).1 &&
            ids.contains (a, b, w).2.1 &&
            !(hasEdge acc (a, b, w).1 (a, b, w).2.1)
            then acc ++ [(a, b, w)] else acc) := by
          by_cases hc : (ids.contains (a, b, w).1 &&
              ids.contains (a, b, w).2.1 &&
              !(hasEdge acc (a, b, w).1 (a, b, w).2.1)) = true
          · rw [if_pos hc]; exact List.mem_append_left _ he0
          · rw [if_neg hc]; exact he0
        have hfin := create_grow ids rest _ e0 he0'
        rcases hcond with ⟨h1, h2⟩ | ⟨h1, h2⟩
        · refine ⟨e0.2.2, Or.inl ?_⟩
          rw [show (a, b, e0.2.2) = e0 by rw [← h1, ← h2]]
          exact hfin
        · refine ⟨e0.2.2, Or.inr ?_⟩
          rw [show (b, a, e0.2.2) = e0 by rw [← h1, ← h2]]
          exact hfin
      · have hc : (ids.contains (a, b, w).1 && ids.contains (a, b, w).2.1 &&
            !(hasEdge acc (a, b, w).1 (a, b, w).2.1)) = true := by
          simp only [Bool.and_eq_true, Bool.not_eq_true']
          exact ⟨⟨ha, hb⟩, Bool.not_eq_true _ ▸ hhe⟩
        rw [if_pos hc]
        exact ⟨w, Or.inl (create_grow ids rest _ _
          (List.mem_append_right _ (by simp)))⟩
    · exact ih _ a b w hmem' ha hb

lemma RoutingGraph.adj_symm (G : RoutingGraph) (a b : ℕ) (h : G.adj a b) :
    G.adj b a := by
  obtain ⟨w, hw⟩ := h
  exact ⟨w, hw.symm⟩

lemma create_adj (locs : List Loc) (edges : List (ℕ × ℕ × ℚ)) (a b : ℕ)
    (w : ℚ) (hmem : (a, b, w) ∈ edges)
    (ha : a ∈ (locs.filter (·.traversable)).map (·.id))
    (hb : b ∈ (locs.filter (·.traversable)).map (·.id)) :
    (create_graph_from_edges locs edges).adj a b := by
  obtain ⟨w', hw'⟩ := create_adj_aux ((locs.filter (·.traversable)).map (·.id))
    edges [] a b w hmem (List.elem_iff.mpr ha) (List.elem_iff.mpr hb)
  exact ⟨w', hw'⟩

lemma mem_idsT_of_mem_filter (locs : List Loc) (l : Loc)
    (hl : l ∈ locs.filter (·.traversable)) :
    l.id ∈ (traversableIndices locs).map fun i => (locs.getD i default).id := by
  rw [List.mem_filter] at hl
  obtain ⟨n, hn, hln⟩ := List.mem_iff_getElem.mp hl.1
  have hgetD : locs.getD n default = l := by
    rw [List.getD_eq_getElem?_getD, List.getElem?_eq_getElem hn, hln]
    rfl
  refine List.mem_map.mpr ⟨n, ?_, by rw [hgetD]⟩
  unfold traversableIndices
  rw [List.mem_filter]
  exact ⟨List.mem_range.mpr hn, by rw [hgetD]; exact hl.2⟩

lemma idsT_subset (locs : List Loc) (x : ℕ)
    (hx : x ∈ (traversableIndices locs).map fun i => (locs.getD i default).id) :
    x ∈ (locs.filter (·.traversable)).map (·.id) := by
  obtain ⟨i, hi, hrfl⟩ := List.mem_map.mp hx
  have hilt := traversableIndices_lt locs i hi
  have htrav : (locs.getD i default).traversable = true := by
    unfold traversableIndices at hi
    rw [List.mem_filter] at hi
    exact hi.2
  refine List.mem_map.mpr ⟨locs.getD i default, ?_, hrfl⟩
  rw [List.mem_filter]
  exact ⟨getD_mem_of_lt locs i hilt, htrav⟩

lemma build_false_endpoints (locs : List Loc) (maxI maxC minC : ℚ)
    (e : ℕ × ℕ × ℚ) (he : e ∈ build_enhanced_graph locs maxI maxC false minC) :
    e.1 ∈ ((traversableIndices locs).map fun i => (locs.getD i default).id) ∧
    e.2.1 ∈ ((traversableIndices locs).map fun i => (locs.getD i default).id) := by
  rw [build_false_eq] at he
  have mk : ∀ i j, i ∈ traversableIndices locs → j ∈ traversableIndices locs →
      e = ((locs.getD i default).id, (locs.getD j default).id,
           sqDist (locs.getD i default).pt (locs.getD j default).pt) →
      e.1 ∈ ((traversableIndices locs).map fun i => (locs.getD i default).id) ∧
      e.2.1 ∈ ((traversableIndices locs).map fun i =>
        (locs.getD i default).id) := by
    intro i j hi hj heq
    rw [heq]
    exact ⟨List.mem_map.mpr ⟨i, hi, rfl⟩, List.mem_map.mpr ⟨j, hj, rfl⟩⟩
  rcases List.mem_append.mp he with hg | hiso
  · unfold guardedEdges at hg
    rcases List.mem_append.mp hg with hg12 | h3
    · rcases List.mem_append.mp hg12 with h1 | h2
      · obtain ⟨i, j, ⟨g, hgm, hi, hj⟩, -, -, heq⟩ :=
          intraAisleEdges_mem locs maxI minC _ _ e h1
        exact mk i j (aisleGroups_subset _ _ g hgm i hi)
          (aisleGroups_subset _ _ g hgm j hj) heq
      · obtain ⟨i, j, ⟨g, hgm, hi, hj⟩, -, -, heq⟩ :=
          intraAisleEdges_mem locs maxI minC _ _ e h2
        exact mk i j (aisleGroups_subset _ _ g hgm i hi)
          (aisleGroups_subset _ _ g hgm j hj) heq
    · obtain ⟨i, j, hi, hj, -, -, heq⟩ :=
        crossAisleEdges_mem locs maxC minC _ e h3
      exact mk i j (List.mem_of_mem_filter hi) (List.mem_of_mem_filter hj) heq
  · obtain ⟨i, j, hi, hj, -, heq⟩ := isolatedEdges_mem locs minC _ e hiso
    exact mk i j hi hj heq

lemma repairEdges_endpoints (locs : List Loc) (comps : List (List ℕ))
    (ids : List ℕ) (hsub : ∀ c ∈ comps, ∀ x ∈ c, x ∈ ids) (e : ℕ × ℕ × ℚ)
    (he : e ∈ repairEdges locs comps) : e.1 ∈ ids ∧ e.2.1 ∈ ids := by
  unfold repairEdges at he
  obtain ⟨i, hi, hbr⟩ := List.mem_filterMap.mp he
  rw [List.mem_range] at hi
  obtain ⟨u, v, d⟩ := e
  rcases bridgeScan_carry locs _ _ none u v d hbr with hnone | ⟨hu, hv⟩
  · exact Option.noConfusion hnone
  · have hil : i < comps.length := by omega
    have hci : comps.getD i [] ∈ comps := by
      rw [List.getD_eq_getElem?_getD, List.getElem?_eq_getElem hil]
      exact List.getElem_mem hil
    obtain ⟨c', hc', hvc'⟩ := List.mem_flatten.mp hv
    have hc'mem : c' ∈ comps := by
      have := List.mem_of_mem_drop hc'
      exact this
    exact ⟨hsub _ hci u hu, hsub _ hc'mem v hvc'⟩

lemma build_true_eq (locs : List Loc) (maxI maxC minC : ℚ) :
    build_enhanced_graph locs maxI maxC true minC =
      (if 1 < (connectedComponents
          ((traversableIndices locs).map fun i => (locs.getD i default).id)
          (build_enhanced_graph locs maxI maxC false minC)).length
       then build_enhanced_graph locs maxI maxC false minC ++
         repairEdges locs (connectedComponents
           ((traversableIndices locs).map fun i => (locs.getD i default).id)
           (build_enhanced_graph locs maxI maxC false minC))
       else build_enhanced_graph locs maxI maxC false minC) := rfl

lemma build_true_endpoints (locs : List Loc) (maxI maxC minC : ℚ)
    (e : ℕ × ℕ × ℚ) (he : e ∈ build_enhanced_graph locs maxI maxC true minC) :
    e.1 ∈ ((traversableIndices locs).map fun i => (locs.getD i default).id) ∧
    e.2.1 ∈ ((traversableIndices locs).map fun i => (locs.getD i default).id) := by
  rw [build_true_eq] at he
  by_cases hlen : 1 < (connectedComponents
      ((traversableIndices locs).map fun i => (locs.getD i default).id)
      (build_enhanced_graph locs maxI maxC false minC)).length
  · rw [if_pos hlen] at he
    rcases List.mem_append.mp he with hb | hr
    · exact build_false_endpoints locs maxI maxC minC e hb
    · exact repairEdges_endpoints locs _ _
        (connectedComponents_inv _ _).2.1 e hr
  · rw [if_neg hlen] at he
    exact build_false_endpoints locs maxI maxC minC e he

lemma cc_reach_all (locs : List Loc) (E : List (ℕ × ℕ × ℚ)) (nodes : List ℕ)
    (a : ℕ) (ha : a ∈ nodes) (b : ℕ) (hb : b ∈ nodes) :
    reachE (if 1 < (connectedComponents nodes E).length
            then E ++ repairEdges locs (connectedComponents nodes E)
            else E) a b := by
  obtain ⟨hcne, hcsub, hcov, hconn⟩ := connectedComponents_inv nodes E
  by_cases hlen : 1 < (connectedComponents nodes E).length
  · rw [if_pos hlen]
    obtain ⟨ca, hca, hmema⟩ := hcov a ha
    obtain ⟨cb, hcb, hmemb⟩ := hcov b hb
    obtain ⟨ia, hialt, heqa⟩ := List.mem_iff_getElem.mp hca
    obtain ⟨ib, hiblt, heqb⟩ := List.mem_iff_getElem.mp hcb
    have hmema' : a ∈ (connectedComponents nodes E).getD ia [] := by
      rw [List.getD_eq_getElem?_getD, List.getElem?_eq_getElem hialt,
        Option.getD_some, heqa]
      exact hmema
    have hmemb' : b ∈ (connectedComponents nodes E).getD ib [] := by
      rw [List.getD_eq_getElem?_getD, List.getElem?_eq_getElem hiblt,
        Option.getD_some, heqb]
      exact hmemb
    have har := reach_last locs E (connectedComponents nodes E) hcne hconn
      (connectedComponents nodes E).length ia (by omega) hialt a hmema'
    have hbr := reach_last locs E (connectedComponents nodes E) hcne hconn
      (connectedComponents nodes E).length ib (by omega) hiblt b hmemb'
    exact Relation.ReflTransGen.trans har (reachE_symm _ hbr)
  · rw [if_neg hlen]
    push_neg at hlen
    obtain ⟨ca, hca, hmema⟩ := hcov a ha
    obtain ⟨cb, hcb, hmemb⟩ := hcov b hb
    have h1 : (connectedComponents nodes E).length = 1 := by
      have := List.length_pos.mpr (List.ne_nil_of_mem hca)
      omega
    obtain ⟨c, hc⟩ := List.length_eq_one.mp h1
    rw [hc, List.mem_singleton] at hca hcb
    rw [hca] at hmema
    rw [hcb] at hmemb
    refine hconn c ?_ a hmema b hmemb
    rw [hc]
    exact List.mem_singleton_self c

/-- **C1** — Connectivity guarantee of repair: for every layout with at least
one traversable location, the routing graph produced by
`build_enhanced_graph` with `ensure_connectivity=True` followed by
`create_graph_from_edges` is a single connected component: its node list is
nonempty and every two of its nodes are joined by a path.  (The guarantee is
unconditional because the repair loop's bridging edges skip the obstacle
check, so the closest cross-component pair is always accepted; in particular
it holds whenever the traversable locations are mutually reachable by
unobstructed segment chains.) -/
theorem build_repair_single_component (locs : List Loc) (maxI maxC minC : ℚ)
    (hne : traversableIndices locs ≠ []) :
    (create_graph_from_edges locs
        (build_enhanced_graph locs maxI maxC true minC)).nodes ≠ [] ∧
    ∀ l1 ∈ (create_graph_from_edges locs
        (build_enhanced_graph locs maxI maxC true minC)).nodes,
      ∀ l2 ∈ (create_graph_from_edges locs
          (build_enhanced_graph locs maxI maxC true minC)).nodes,
        (create_graph_from_edges locs
            (build_enhanced_graph locs maxI maxC true minC)).reach
          l1.id l2.id := by
  have hnodes : ∀ E, (create_graph_from_edges locs E).nodes =
      locs.filter (·.traversable) := fun _ => rfl
  constructor
  · rw [hnodes]
    obtain ⟨i, hi⟩ := List.exists_mem_of_ne_nil _ hne
    have hilt := traversableIndices_lt locs i hi
    have htrav : (locs.getD i default).traversable = true := by
      unfold traversableIndices at hi
      rw [List.mem_filter] at hi
      exact hi.2
    exact List.ne_nil_of_mem
      (List.mem_filter.mpr ⟨getD_mem_of_lt locs i hilt, htrav⟩)
  · intro l1 hl1 l2 hl2
    rw [hnodes] at hl1 hl2
    have ha := mem_idsT_of_mem_filter locs l1 hl1
    have hb := mem_idsT_of_mem_filter locs l2 hl2
    have hreach : reachE (build_enhanced_graph locs maxI maxC true minC)
        l1.id l2.id := by
      rw [build_true_eq]
      exact cc_reach_all locs (build_enhanced_graph locs maxI maxC false minC)
        _ l1.id ha l2.id hb
    refine Relation.ReflTransGen.mono ?_ hreach
    intro x y hxy
    obtain ⟨w, hw⟩ := hxy
    rcases hw with hw | hw
    · exact create_adj locs _ x y w hw
        (idsT_subset locs x (build_true_endpoints locs maxI maxC minC _ hw).1)
        (idsT_subset locs y (build_true_endpoints locs maxI maxC minC _ hw).2)
    · exact RoutingGraph.adj_symm _ y x (create_adj locs _ y x w hw
        (idsT_subset locs y (build_true_endpoints locs maxI maxC minC _ hw).1)
        (idsT_subset locs x (build_true_endpoints locs maxI maxC minC _ hw).2))

set_option maxHeartbeats 4000000 in
lemma locsWall_build_false :
    build_enhanced_graph locsWall 20 15 false 1 =
      [(0, 1, 225), (1, 2, 225), (3, 4, 225), (4, 5, 225)] := by
  norm_num +decide [build_enhanced_graph, traversableIndices, aisleGroups,
    labelsInOrder, intraAisleEdges, crossAisleEdges, isolatedEdges,
    consecPairs, should_prevent_connection, is_path_blocked,
    check_line_intersects_obstacle, line_segments_intersect, rectEdges,
    sqDist, Loc.pt, locsWall, List.range, List.mergeSort, List.merge,
    List.getD, List.filterMap, List.flatMap, List.foldl, List.filter,
    List.map, List.take, List.any, List.flatten, List.find?,
    abs_of_nonneg, abs_of_nonpos]

set_option maxHeartbeats 4000000 in
lemma locsPair_guarded :
    guardedEdges locsPair 20 15 1 =
      [(0, 1, 226), (1, 2, 226), (3, 4, 226), (4, 5, 226)] := by
  norm_num +decide [guardedEdges, traversableIndices, aisleGroups,
    labelsInOrder, intraAisleEdges, crossAisleEdges, consecPairs,
    should_prevent_connection, is_path_blocked,
    check_line_intersects_obstacle, line_segments_intersect, rectEdges,
    sqDist, Loc.pt, locsPair, List.range, List.mergeSort, List.merge,
    List.getD, List.filterMap, List.flatMap, List.foldl, List.filter,
    List.map, List.take, List.any, List.flatten, List.find?,
    abs_of_nonneg, abs_of_nonpos]

theorem build_edges_unblocked_without_repair_witness :
    ((0, 1, 225) : ℕ × ℕ × ℚ) ∈ build_enhanced_graph locsWall 20 15 false 1 ∧
    ∃ l1 l2, l1 ∈ locsWall ∧ l2 ∈ locsWall ∧ l1.id = 0 ∧ l2.id = 1 ∧
      is_path_blocked l1.pt l2.pt locsWall 1 = false := by
  have hmem : ((0, 1, 225) : ℕ × ℕ × ℚ) ∈
      build_enhanced_graph locsWall 20 15 false 1 := by
    rw [locsWall_build_false]
    norm_num
  exact ⟨hmem,
    build_edges_unblocked_without_repair locsWall 20 15 1 (0, 1, 225) hmem⟩

theorem guarded_edges_respect_rack_rule_witness :
    ((0, 1, 226) : ℕ × ℕ × ℚ) ∈ guardedEdges locsPair 20 15 1 ∧
    ∃ i j,
      ((0, 1, 226) : ℕ × ℕ × ℚ) =
        ((locsPair.getD i default).id, (locsPair.getD j default).id,
         sqDist (locsPair.getD i default).pt (locsPair.getD j default).pt) ∧
      ¬ (0 ≤ (locsPair.getD i default).rackId ∧
         0 ≤ (locsPair.getD j default).rackId ∧
         (locsPair.getD i default).rackSide ≠ RackSide.noSide ∧
         (locsPair.getD j default).rackSide ≠ RackSide.noSide ∧
         (locsPair.getD i default).rackSide ≠ (locsPair.getD j default).rackSide ∧
         |(locsPair.getD i default).y - (locsPair.getD j default).y| < 20) := by
  have hmem : ((0, 1, 226) : ℕ × ℕ × ℚ) ∈ guardedEdges locsPair 20 15 1 := by
    rw [locsPair_guarded]
    norm_num
  exact ⟨hmem,
    guarded_edges_respect_rack_rule locsPair 20 15 1 (0, 1, 226) hmem⟩

theorem build_repair_single_component_witness :
    traversableIndices locsWall ≠ [] ∧
    (create_graph_from_edges locsWall
        (build_enhanced_graph locsWall 20 15 true 1)).reach 0 5 := by
  have hne : traversableIndices locsWall ≠ [] := by
    have : traversableIndices locsWall = [0, 1, 2, 3, 4, 5] := by
      norm_num [traversableIndices, locsWall, List.range, List.filter,
        List.getD]
    rw [this]
    simp
  refine ⟨hne, ?_⟩
  have h := build_repair_single_component locsWall 20 15 1 hne
  have h1 : (⟨0, 0, 0, .aisle, 0, 0, true, 0, -1, -1, .noSide⟩ : Loc) ∈
      (create_graph_from_edges locsWall
        (build_enhanced_graph locsWall 20 15 true 1)).nodes := by
    show _ ∈ locsWall.filter (·.traversable)
    rw [List.mem_filter]
    exact ⟨List.mem_cons_self _ _, rfl⟩
  have h2 : (⟨5, 30, 30, .aisle, 0, 0, true, 1, -1, -1, .noSide⟩ : Loc) ∈
      (create_graph_from_edges locsWall
        (build_enhanced_graph locsWall 20 15 true 1)).nodes := by
    show _ ∈ locsWall.filter (·.traversable)
    rw [List.mem_filter]
    refine ⟨?_, rfl⟩
    exact List.mem_cons_of_mem _ (List.mem_cons_of_mem _
      (List.mem_cons_of_mem _ (List.mem_cons_of_mem _
        (List.mem_cons_of_mem _ (List.mem_cons_self _ _)))))
  exact h.2 _ h1 _ h2

/-! ### Multi-floor per-floor strategy (`multi_floor.py`)

`MultiFloorWarehouse._load_floors` numbers the floors `1..n` with
`enumerate(start=1)` and prefixes every location id with `"F{floor}_"`, so the
`self.floors` dict iterates its keys in ascending floor order and
`sorted(picks_by_floor.keys())` enumerates the floors holding picks in that
same order.  A prefixed node id `"F{k}_{orig}"` is embedded as the pair
`(k, orig) : ℕ × ℕ`; the floor-tag parse
`int(node.split('_')[0][1:])` of `_analyze_floor_transitions` is then the
first projection.  The external `solve_tsp` (christofides, via networkx) and
`calculate_route_distance` calls are modelled by oracles indexed by the floor
number (one oracle argument per per-floor graph); `solve_tsp` may return
`none` (Python `None`) and a falsy (empty) route is skipped by the source's
`if floor_route:` guard.  A floor holding picks but no staging/dock row makes
`.iloc[0]` raise, embedded as the `none` (crash) result. -/

/-- One row of a floor dataframe, with the columns `solve_per_floor_tsp`
reads: `original_id` and `type`. -/
structure MFLoc where
  original_id : ℕ
  typ : LocType
deriving DecidableEq, Repr

/-- First floor (in dict order) whose locations contain the pick's original
id — the grouping loop's `break`. -/
def firstFloorOf (floors : List (ℕ × List MFLoc)) (p : ℕ) : Option ℕ :=
  (floors.find? fun fl => fl.2.any fun l => l.original_id == p).map (·.1)

/-- `picks_by_floor[f]`: the picks grouped onto floor `f`, in pick-list
order, as prefixed nodes `(f, pick)`. -/
def picksOnFloor (floors : List (ℕ × List MFLoc)) (picks : List ℕ) (f : ℕ) :
    List (ℕ × ℕ) :=
  (picks.filter fun p => firstFloorOf floors p == some f).map fun p => (f, p)

/-- The floor's own start node: the first staging/dock row's prefixed id.
`none` embeds the `.iloc[0]` crash on a floor with no staging/dock row. -/
def floorStart (f : ℕ) (locs : List MFLoc) : Option (ℕ × ℕ) :=
  (locs.find? fun l =>
    l.typ == LocType.staging || l.typ == LocType.dock).map
    fun l => (f, l.original_id)

/-- The per-floor solve loop: for each floor holding picks, look up the
floor's staging/dock start (`none` = crash), run the TSP oracle on
`[floor_start] + floor_picks`, and record `(floor, route, distance)` when the
returned route is truthy; floors without picks, and floors whose solve
returns `None` or an empty route, are skipped. -/
def solveFloorsGo (tsp : ℕ → List (ℕ × ℕ) → Option (List (ℕ × ℕ)))
    (dist : ℕ → List (ℕ × ℕ) → ℚ) (g : ℕ → List (ℕ × ℕ)) :
    List (ℕ × List MFLoc) → List (ℕ × List (ℕ × ℕ) × ℚ) →
    Option (List (ℕ × List (ℕ × ℕ) × ℚ))
  | [], acc => some acc
  | fl :: rest, acc =>
    if g fl.1 = [] then solveFloorsGo tsp dist g rest acc
    else
      match floorStart fl.1 fl.2 with
      | none => none
      | some s =>
        match tsp fl.1 (s :: g fl.1) with
        | none => solveFloorsGo tsp dist g rest acc
        | some r =>
          if r = [] then solveFloorsGo tsp dist g rest acc
          else solveFloorsGo tsp dist g rest
            (acc ++ [(fl.1, r, dist fl.1 r)])

/-- The grouping pass followed by the per-floor solve loop. -/
def solveFloors (tsp : ℕ → List (ℕ × ℕ) → Option (List (ℕ × ℕ)))
    (dist : ℕ → List (ℕ × ℕ) → ℚ) (floors : List (ℕ × List MFLoc))
    (picks : List ℕ) : Option (List (ℕ × List (ℕ × ℕ) × ℚ)) :=
  solveFloorsGo tsp dist (picksOnFloor floors picks) floors []

/-- `_merge_sequential`: the lowest-numbered floor route in full, every later
route with its duplicated first node dropped. -/
def mergeSequential (routes : List (List (ℕ × ℕ))) : List (ℕ × ℕ) :=
  match routes with
  | [] => []
  | r :: rest => r ++ rest.flatMap (List.drop 1)

/-- The scan of `_analyze_floor_transitions`: walk the route carrying the
previous floor tag, recording `(prev, floor)` at every change. -/
def transitionsGo (prev : Option ℕ) (acc : List (ℕ × ℕ)) :
    List (ℕ × ℕ) → List (ℕ × ℕ)
  | [] => acc
  | n :: rest =>
    transitionsGo (some n.1)
      (match prev with
       | some pf => if n.1 ≠ pf then acc ++ [(pf, n.1)] else acc
       | none => acc) rest

/-- The transitions list of `_analyze_floor_transitions`;
`num_transitions` is its length. -/
def floorTransitions (route : List (ℕ × ℕ)) : List (ℕ × ℕ) :=
  transitionsGo none [] route

/-- Embeds `solve_per_floor_tsp(picks, merge_strategy='sequential')`:
group picks by floor, solve each floor from its own staging/dock start,
merge sequentially, and return the merged route, the total distance
`sum(floor_distances) + num_transitions * inter_floor_penalty`, and the
transitions list. -/
def solve_per_floor_tsp (tsp : ℕ → List (ℕ × ℕ) → Option (List (ℕ × ℕ)))
    (dist : ℕ → List (ℕ × ℕ) → ℚ) (floors : List (ℕ × List MFLoc))
    (picks : List ℕ) (penalty : ℚ) :
    Option (List (ℕ × ℕ) × ℚ × List (ℕ × ℕ)) :=
  match solveFloors tsp dist floors picks with
  | none => none
  | some rs =>
    let merged := mergeSequential (rs.map fun t => t.2.1)
    let trans := floorTransitions merged
    some (merged,
      (rs.map fun t => t.2.2).sum + (trans.length : ℚ) * penalty,
      trans)

lemma solveFloorsGo_eq (tsp : ℕ → List (ℕ × ℕ) → Option (List (ℕ × ℕ)))
    (dist : ℕ → List (ℕ × ℕ) → ℚ) (g : ℕ → List (ℕ × ℕ)) :
    ∀ (L : List (ℕ × List MFLoc)) (acc : List (ℕ × List (ℕ × ℕ) × ℚ)),
      (∀ fl ∈ L, g fl.1 ≠ [] → ∃ s, floorStart fl.1 fl.2 = some s) →
      (∀ fl ∈ L, g fl.1 ≠ [] →
        ∃ r, tsp fl.1 ((floorStart fl.1 fl.2).getD (fl.1, 0) :: g fl.1) =
            some r ∧ r ≠ []) →
      solveFloorsGo tsp dist g L acc =
        some (acc ++
          (L.filter fun fl => decide (g fl.1 ≠ [])).map fun fl =>
            (fl.1,
             (tsp fl.1
               ((floorStart fl.1 fl.2).getD (fl.1, 0) :: g fl.1)).getD [],
             dist fl.1
               ((tsp fl.1
                 ((floorStart fl.1 fl.2).getD (fl.1, 0) :: g fl.1)).getD []))) := by
  intro L
  induction L with
  | nil => intro acc hs ht; simp [solveFloorsGo]
  | cons fl rest ih =>
    intro acc hs ht
    by_cases hg : g fl.1 = []
    · rw [solveFloorsGo, if_pos hg]
      rw [ih acc (fun x hx => hs x (List.mem_cons_of_mem _ hx))
        (fun x hx => ht x (List.mem_cons_of_mem _ hx))]
      congr 1
      rw [List.filter_cons_of_neg]
      simp [hg]
    · obtain ⟨s, hseq⟩ := hs fl (List.mem_cons_self _ _) hg
      obtain ⟨r, hreq, hrne⟩ := ht fl (List.mem_cons_self _ _) hg
      rw [hseq, Option.getD_some] at hreq
      rw [solveFloorsGo, if_neg hg]
      simp only [hseq, hreq]
      rw [if_neg hrne]
      rw [ih _ (fun x hx => hs x (List.mem_cons_of_mem _ hx))
        (fun x hx => ht x (List.mem_cons_of_mem _ hx))]
      rw [List.filter_cons_of_pos (by simpa using hg), List.map_cons]
      rw [hseq, Option.getD_some, hreq, Option.getD_some]
      simp

/-- **C9** — Per-floor strategy accounting: with `merge_strategy='sequential'`,
whenever every floor holding picks has a staging/dock row and the per-floor
TSP oracle returns a nonempty route for it, `solve_per_floor_tsp` groups the
picks by first containing floor, solves each such floor from that floor's own
first staging/dock start, concatenates the per-floor routes in ascending
floor order dropping the duplicated first node of each later route, and
returns as total distance the sum of the per-floor route distances plus the
inter-floor penalty times the number of floor transitions, transitions being
counted by scanning the merged route for consecutive floor-tag changes. -/
theorem per_floor_accounting (tsp : ℕ → List (ℕ × ℕ) → Option (List (ℕ × ℕ)))
    (dist : ℕ → List (ℕ × ℕ) → ℚ) (floors : List (ℕ × List MFLoc))
    (picks : List ℕ) (penalty : ℚ)
    (hs : ∀ fl ∈ floors, picksOnFloor floors picks fl.1 ≠ [] →
      ∃ s, floorStart fl.1 fl.2 = some s)
    (ht : ∀ fl ∈ floors, picksOnFloor floors picks fl.1 ≠ [] →
      ∃ r, tsp fl.1 ((floorStart fl.1 fl.2).getD (fl.1, 0) ::
          picksOnFloor floors picks fl.1) = some r ∧ r ≠ []) :
    solve_per_floor_tsp tsp dist floors picks penalty =
      (let active := floors.filter fun fl =>
         decide (picksOnFloor floors picks fl.1 ≠ [])
       let route := fun (fl : ℕ × List MFLoc) =>
         (tsp fl.1 ((floorStart fl.1 fl.2).getD (fl.1, 0) ::
           picksOnFloor floors picks fl.1)).getD []
       let merged := mergeSequential (active.map route)
       some (merged,
         (active.map fun fl => dist fl.1 (route fl)).sum +
           ((floorTransitions merged).length : ℚ) * penalty,
         floorTransitions merged)) := by
  unfold solve_per_floor_tsp solveFloors
  rw [solveFloorsGo_eq tsp dist _ floors [] hs ht]
  dsimp only
  rw [List.nil_append]
  simp only [List.map_map]
  rfl

/-- Two floors: floor 1 with a staging row (original id 100) and picking rows
1 and 2, floor 2 with a dock row (original id 200) and picking row 3. -/
def floorsW : List (ℕ × List MFLoc) :=
  [(1, [⟨100, .staging⟩, ⟨1, .picking⟩, ⟨2, .picking⟩]),
   (2, [⟨200, .dock⟩, ⟨3, .picking⟩])]

def picksW : List ℕ := [1, 3, 2]

/-- Identity TSP oracle: returns the requested waypoints in the given order. -/
def tspW : ℕ → List (ℕ × ℕ) → Option (List (ℕ × ℕ)) := fun _ r => some r

/-- Route-distance oracle: one unit per waypoint. -/
def distW : ℕ → List (ℕ × ℕ) → ℚ := fun _ r => (r.length : ℚ)

theorem per_floor_accounting_witness :
    solve_per_floor_tsp tspW distW floorsW picksW 1000 =
      some ([(1, 100), (1, 1), (1, 2), (2, 3)], 1005, [(1, 2)]) := by
  have h := per_floor_accounting tspW distW floorsW picksW 1000
    (by
      intro fl hfl _
      rcases List.mem_cons.mp hfl with rfl | hfl'
      · exact ⟨(1, 100), by decide⟩
      rcases List.mem_cons.mp hfl' with rfl | hfl''
      · exact ⟨(2, 200), by decide⟩
      · exact absurd hfl'' (List.not_mem_nil fl))
    (by
      intro fl hfl _
      rcases List.mem_cons.mp hfl with rfl | hfl'
      · exact ⟨[(1, 100), (1, 1), (1, 2)], by decide, by decide⟩
      rcases List.mem_cons.mp hfl' with rfl | hfl''
      · exact ⟨[(2, 200), (2, 3)], by decide, by decide⟩
      · exact absurd hfl'' (List.not_mem_nil fl))
  rw [h]
  norm_num +decide [floorsW, picksW, tspW, distW, picksOnFloor, firstFloorOf,
    floorStart, mergeSequential, floorTransitions, transitionsGo, List.filter,
    List.map, List.find?, List.flatMap, List.drop, List.sum, List.foldr]

/-! ### 2-opt non-regression (C5) -/

lemma selectNearestGo_spec (sp : SPOracle) (current : ℕ) :
    ∀ (l : List ℕ) (best : Option (ℕ × ℚ)) (p : ℕ) (d : ℚ),
      selectNearestGo sp current l best = some (p, d) →
      best = some (p, d) ∨ ∃ path, sp current p = some (path, d) := by
  intro l
  induction l with
  | nil =>
    intro best p d h
    rw [selectNearestGo] at h
    exact Or.inl h
  | cons pick rest ih =>
    intro best p d h
    rw [selectNearestGo] at h
    rcases ih _ p d h with hupd | hfound
    · cases hsp : sp current pick with
      | none =>
        rw [hsp] at hupd
        exact Or.inl hupd
      | some pr =>
        obtain ⟨path, dist⟩ := pr
        rw [hsp] at hupd
        cases best with
        | none =>
          dsimp only at hupd
          rw [Option.some.injEq, Prod.mk.injEq] at hupd
          refine Or.inr ?_
          rw [← hupd.1, ← hupd.2]
          exact ⟨path, hsp⟩
        | some b =>
          obtain ⟨bp, bd⟩ := b
          dsimp only at hupd
          by_cases hlt : dist < bd
          · rw [if_pos hlt] at hupd
            rw [Option.some.injEq, Prod.mk.injEq] at hupd
            refine Or.inr ?_
            rw [← hupd.1, ← hupd.2]
            exact ⟨path, hsp⟩
          · rw [if_neg hlt] at hupd
            exact Or.inl hupd
    · exact Or.inr hfound

lemma selectNearest_spec (sp : SPOracle) (current : ℕ) (remaining : List ℕ)
    (p : ℕ) (d : ℚ) (h : selectNearest sp current remaining = some (p, d)) :
    ∃ path, sp current p = some (path, d) := by
  rcases selectNearestGo_spec sp current remaining none p d h with h' | h'
  · exact Option.noConfusion h'
  · exact h'

lemma greedyFinish_order (sp : SPOracle) (endNode current : ℕ)
    (route order : List ℕ) (total : ℚ) :
    (greedyFinish sp endNode current route order total).2.2 = order := by
  unfold greedyFinish
  cases sp current endNode with
  | none => rfl
  | some pr => rfl

lemma greedyFinish_eval (sp : SPOracle) (endNode : ℕ)
    (h0 : spLen sp endNode endNode = some 0) (current : ℕ)
    (route order : List ℕ) (total : ℚ) :
    evalOrderGo sp endNode current [] total =
      some (greedyFinish sp endNode current route order total).2.1 := by
  rw [evalOrderGo]
  unfold greedyFinish
  by_cases hc : current = endNode
  · subst hc
    rw [if_neg (fun hne => hne rfl)]
    cases hsp : sp current current with
    | none => rfl
    | some pr =>
      obtain ⟨seg, d⟩ := pr
      unfold spLen at h0
      rw [hsp] at h0
      simp only [Option.map_some', Option.some.injEq] at h0
      have hd : d = 0 := h0
      rw [hd]
      dsimp only
      rw [add_zero]
  · rw [if_pos hc]
    cases hsp : sp current endNode with
    | none =>
      simp only [spLen, hsp, Option.map_none']
    | some pr =>
      obtain ⟨seg, d⟩ := pr
      simp only [spLen, hsp, Option.map_some']

lemma greedyGo_eval (sp : SPOracle) (endNode : ℕ)
    (h0 : spLen sp endNode endNode = some 0) :
    ∀ (fuel current : ℕ) (remaining route order : List ℕ) (total : ℚ),
      ∃ tail,
        (greedyGo sp endNode fuel current remaining route order total).2.2 =
          order ++ tail ∧
        evalOrderGo sp endNode current tail total =
          some (greedyGo sp endNode fuel current remaining route order
            total).2.1 := by
  intro fuel
  induction fuel with
  | zero =>
    intro current remaining route order total
    refine ⟨[], ?_, ?_⟩
    · rw [List.append_nil, greedyGo]
      exact greedyFinish_order sp endNode current route order total
    · rw [greedyGo]
      exact greedyFinish_eval sp endNode h0 current route order total
  | succ fuel ih =>
    intro current remaining route order total
    rw [greedyGo]
    cases hsel : selectNearest sp current remaining with
    | none =>
      simp only [hsel]
      refine ⟨[], ?_, ?_⟩
      · rw [List.append_nil]
        exact greedyFinish_order sp endNode current route order total
      · exact greedyFinish_eval sp endNode h0 current route order total
    | some pr =>
      obtain ⟨nearest, dist⟩ := pr
      simp only [hsel]
      obtain ⟨tail, h1, h2⟩ := ih nearest (remaining.erase nearest)
        (route ++ ((((sp current nearest).map Prod.fst).getD []).drop 1))
        (order ++ [nearest]) (total + dist)
      refine ⟨nearest :: tail, ?_, ?_⟩
      · rw [h1]
        exact (List.append_cons order nearest tail).symm
      · rw [evalOrderGo]
        obtain ⟨path, hsp⟩ := selectNearest_spec sp current remaining nearest
          dist hsel
        have hlen : spLen sp current nearest = some dist := by
          unfold spLen
          rw [hsp, Option.map_some']
        rw [hlen]
        exact h2

lemma solveTspGreedy_eval (sp : SPOracle) (startNode : ℕ) (picks : List ℕ)
    (endNode : ℕ) (h0 : spLen sp endNode endNode = some 0) :
    evalOrder sp startNode endNode
        (solveTspGreedy sp startNode picks endNode).2.2 =
      some (solveTspGreedy sp startNode picks endNode).2.1 := by
  unfold solveTspGreedy evalOrder
  obtain ⟨tail, h1, h2⟩ := greedyGo_eval sp endNode h0 picks.dedup.length
    startNode picks.dedup [startNode] [] 0
  rw [h1, List.nil_append]
  exact h2

lemma findImprovement_spec (sp : SPOracle) (s e : ℕ) (order : List ℕ)
    (dist : ℚ) (newOrder : List ℕ) (newDist : ℚ)
    (h : findImprovement sp s e order dist = some (newOrder, newDist)) :
    newDist < dist ∧ evalOrder sp s e newOrder = some newDist := by
  unfold findImprovement at h
  obtain ⟨ij, -, hij⟩ := findSome?_spec _ _ _ h
  dsimp only at hij
  cases hev : evalOrder sp s e (twoOptSwap order ij.1 ij.2) with
  | none => rw [hev] at hij; exact Option.noConfusion hij
  | some v =>
    rw [hev] at hij
    dsimp only at hij
    by_cases hv : v < dist
    · rw [if_pos hv] at hij
      rw [Option.some.injEq, Prod.mk.injEq] at hij
      refine ⟨hij.2 ▸ hv, ?_⟩
      rw [← hij.1, hev, hij.2]
    · rw [if_neg hv] at hij
      exact Option.noConfusion hij

lemma twoOptLoop_le (sp : SPOracle) (s e : ℕ) :
    ∀ (fuel : ℕ) (order : List ℕ) (dist : ℚ),
      evalOrder sp s e order = some dist →
      (twoOptLoop sp s e fuel order dist).2 ≤ dist ∧
      evalOrder sp s e (twoOptLoop sp s e fuel order dist).1 =
        some (twoOptLoop sp s e fuel order dist).2 := by
  intro fuel
  induction fuel with
  | zero =>
    intro order dist h
    rw [twoOptLoop]
    exact ⟨le_refl _, h⟩
  | succ fuel ih =>
    intro order dist h
    rw [twoOptLoop]
    cases hfi : findImprovement sp s e order dist with
    | none =>
      simp only [hfi]
      exact ⟨le_refl _, h⟩
    | some pr =>
      obtain ⟨newOrder, newDist⟩ := pr
      simp only [hfi]
      obtain ⟨hlt, hev⟩ :=
        findImprovement_spec sp s e order dist newOrder newDist hfi
      obtain ⟨h1, h2⟩ := ih newOrder newDist hev
      exact ⟨le_trans h1 (le_of_lt hlt), h2⟩

lemma rebuildGo_eval (sp : SPOracle) (endNode : ℕ)
    (h0 : spLen sp endNode endNode = some 0) :
    ∀ (order : List ℕ) (current : ℕ) (route : List ℕ) (total : ℚ)
      (r : List ℕ) (t : ℚ),
      rebuildGo sp endNode current order route total = some (r, t) →
      evalOrderGo sp endNode current order total = some t := by
  intro order
  induction order with
  | nil =>
    intro current route total r t h
    rw [rebuildGo] at h
    rw [evalOrderGo]
    cases hsp : sp current endNode with
    | none =>
      rw [hsp] at h
      exact Option.noConfusion h
    | some pr =>
      obtain ⟨seg, d⟩ := pr
      rw [hsp] at h
      dsimp only at h
      rw [Option.some.injEq, Prod.mk.injEq] at h
      by_cases hc : current = endNode
      · rw [if_neg (fun hne => hne hc)]
        subst hc
        unfold spLen at h0
        rw [hsp] at h0
        simp only [Option.map_some', Option.some.injEq] at h0
        have hd : d = 0 := h0
        rw [← h.2, hd, add_zero]
      · rw [if_pos hc]
        simp only [spLen, hsp, Option.map_some']
        rw [← h.2]
  | cons pick rest ih =>
    intro current route total r t h
    rw [rebuildGo] at h
    rw [evalOrderGo]
    cases hsp : sp current pick with
    | none =>
      rw [hsp] at h
      exact Option.noConfusion h
    | some pr =>
      obtain ⟨seg, d⟩ := pr
      rw [hsp] at h
      dsimp only at h
      simp only [spLen, hsp, Option.map_some']
      exact ih pick _ (total + d) r t h

/-- **C5** — 2-opt non-regression under the iteration cap: whenever
`_solve_tsp_2opt` returns a result, its distance is at most the greedy
nearest-neighbor distance on the same inputs — the loop starts from the
greedy tour, accepts only strict improvements, and the total rebuilt at the
end equals the tracked total.  The 100-pass cap (`max_iterations = 100`) is
embedded structurally as the fuel of `twoOptLoop`, so termination within 100
improvement passes holds by construction.  The hypothesis
`spLen sp endNode endNode = some 0` is the `networkx` contract
`shortest_path_length(G, x, x) = 0`. -/
theorem twoOpt_non_regression (sp : SPOracle) (startNode : ℕ)
    (picks : List ℕ) (endNode : ℕ) (h0 : spLen sp endNode endNode = some 0)
    (route : List ℕ) (dist : ℚ) (order : List ℕ)
    (h : solveTsp2opt sp startNode picks endNode = .ok route dist order) :
    dist ≤ (solveTspGreedy sp startNode picks endNode).2.1 := by
  unfold solveTsp2opt at h
  dsimp only at h
  by_cases hlen : (solveTspGreedy sp startNode picks endNode).2.2.length < 3
  · rw [if_pos hlen] at h
    simp only [TSPResult.ok.injEq] at h
    rw [← h.2.1]
  · rw [if_neg hlen] at h
    cases hreb : rebuildGo sp endNode startNode
        (twoOptLoop sp startNode endNode 100
          (solveTspGreedy sp startNode picks endNode).2.2
          (solveTspGreedy sp startNode picks endNode).2.1).1
        [startNode] 0 with
    | none =>
      rw [hreb] at h
      exact absurd h (by simp)
    | some rp =>
      obtain ⟨r, t⟩ := rp
      rw [hreb] at h
      simp only [TSPResult.ok.injEq] at h
      obtain ⟨hle, hev⟩ := twoOptLoop_le sp startNode endNode 100
        (solveTspGreedy sp startNode picks endNode).2.2
        (solveTspGreedy sp startNode picks endNode).2.1
        (solveTspGreedy_eval sp startNode picks endNode h0)
      have ht : evalOrder sp startNode endNode
          (twoOptLoop sp startNode endNode 100
            (solveTspGreedy sp startNode picks endNode).2.2
            (solveTspGreedy sp startNode picks endNode).2.1).1 = some t :=
        rebuildGo_eval sp endNode h0 _ startNode [startNode] 0 r t hreb
      rw [hev, Option.some.injEq] at ht
      rw [← h.2.1, ← ht]
      exact hle

set_option maxHeartbeats 1000000 in
/-- **C5 witness** — on the line graph with picks {3, 1, 2}: greedy finds the
tour 0→1→2→3→0 of length 6, 2-opt finds no improving reversal and returns
the same distance, 6 ≤ 6. -/
theorem twoOpt_non_regression_witness :
    spLen spLine 0 0 = some 0 ∧
    solveTsp2opt spLine 0 [3, 1, 2] 0 =
      .ok [0, 1, 2, 3, 2, 1, 0] 6 [1, 2, 3] ∧
    (6 : ℚ) ≤ (solveTspGreedy spLine 0 [3, 1, 2] 0).2.1 := by
  have h0 : spLen spLine 0 0 = some 0 := by norm_num [spLen, spLine]
  have h : solveTsp2opt spLine 0 [3, 1, 2] 0 =
      .ok [0, 1, 2, 3, 2, 1, 0] 6 [1, 2, 3] := by
    norm_num [solveTsp2opt, solveTspGreedy, greedyGo, greedyFinish,
      selectNearest, selectNearestGo, twoOptLoop, findImprovement, scanPairs,
      twoOptSwap, evalOrder, evalOrderGo, rebuildGo, spLen, spLine,
      List.dedup, List.range', List.flatMap, List.findSome?, List.range]
  exact ⟨h0, h, twoOpt_non_regression spLine 0 [3, 1, 2] 0 h0 _ _ _ h⟩
